import Mathlib

/-
  Verification development for the team roster trust subsystem of the
  Fluidkeys client.  The repository ships only the tests of the `team`
  package, so the operational definitions below are modelled from the
  specification and pinned, byte for byte, to the expectations of those
  tests (TestLoadTeams, TestLoad, TestFindTeamSubdirectories,
  TestUpdateRoster, TestValidate, TestVerifyRoster,
  TestGetUpsertPersonWarnings).

  Text is embedded as `List Char` (the byte/character sequence of a Go
  string); all definitions are executable and structurally recursive so
  that concrete runs evaluate inside the kernel.
-/

namespace team

/-- The double-quote character, written by code point to keep string
literals free of embedded quotes. -/
def quoteChar : Char := Char.ofNat 34

/-- The apostrophe character, used in some fixed error messages. -/
def aposChar : Char := Char.ofNat 39

/-- Uppercase hexadecimal digit for a value below 16. -/
def hexDigitCharU (d : Nat) : Char :=
  if d < 10 then Char.ofNat (48 + d) else Char.ofNat (55 + d)

/-- Lowercase hexadecimal digit for a value below 16. -/
def hexDigitCharL (d : Nat) : Char :=
  if d < 10 then Char.ofNat (48 + d) else Char.ofNat (87 + d)

/-- Decimal digit character for a value below 10. -/
def digitChar (d : Nat) : Char := Char.ofNat (48 + d)

/-- One byte as two uppercase hex characters. -/
def byteHexU (b : Nat) : List Char := [hexDigitCharU (b / 16), hexDigitCharU (b % 16)]

/-- One byte as two lowercase hex characters. -/
def byteHexL (b : Nat) : List Char := [hexDigitCharL (b / 16), hexDigitCharL (b % 16)]

/-- A byte sequence as uppercase hex text. -/
def bytesHexU : List Nat → List Char
  | [] => []
  | b :: bs => byteHexU b ++ bytesHexU bs

/-- A byte sequence as lowercase hex text. -/
def bytesHexL : List Nat → List Char
  | [] => []
  | b :: bs => byteHexL b ++ bytesHexL bs

/-- Numeric value of a hex character (either case); `none` otherwise. -/
def hexCharVal (c : Char) : Option Nat :=
  if '0' ≤ c ∧ c ≤ '9' then some (c.toNat - 48)
  else if 'A' ≤ c ∧ c ≤ 'F' then some (c.toNat - 55)
  else if 'a' ≤ c ∧ c ≤ 'f' then some (c.toNat - 87)
  else none

/-- Decode hex text, two characters per byte. -/
def parseHexBytes : List Char → Option (List Nat)
  | [] => some []
  | [_] => none
  | c1 :: c2 :: rest =>
    match hexCharVal c1, hexCharVal c2 with
    | some d1, some d2 =>
      match parseHexBytes rest with
      | some bs => some ((d1 * 16 + d2) :: bs)
      | none => none
    | _, _ => none

/-- Little-endian decimal digits of `n`, with explicit fuel so the
definition is structurally recursive and kernel-reducible. -/
def digitsRev : Nat → Nat → List Nat
  | 0, _ => []
  | fuel + 1, n => if n = 0 then [] else n % 10 :: digitsRev fuel (n / 10)

/-- Decimal text of a natural number. -/
def natChars (n : Nat) : List Char :=
  if n = 0 then [digitChar 0] else ((digitsRev (n + 1) n).reverse).map digitChar

/-- Numeric value of a decimal digit character; `none` otherwise. -/
def charDigitVal (c : Char) : Option Nat :=
  if '0' ≤ c ∧ c ≤ '9' then some (c.toNat - 48) else none

/-- Fold decimal characters into a number, failing on a non-digit. -/
def parseNatAux : Nat → List Char → Option Nat
  | acc, [] => some acc
  | acc, c :: cs =>
    match charDigitVal c with
    | some d => parseNatAux (acc * 10 + d) cs
    | none => none

/-- Parse non-empty decimal text. -/
def parseNatChars (l : List Char) : Option Nat :=
  if l = [] then none else parseNatAux 0 l

/-- A 160-bit OpenPGP key fingerprint: 20 bytes. -/
structure Fingerprint where
  bytes : List Nat
deriving DecidableEq

/-- A 128-bit team identifier: 16 bytes. -/
structure Uuid where
  bytes : List Nat
deriving DecidableEq

/-- The all-zero UUID (the Go zero value `uuid.Nil`). -/
def Uuid.nil : Uuid := ⟨List.replicate 16 0⟩

/-- Insert the canonical 8-4-4-4-12 dashes into 32 hex characters. -/
def insertDashes (l : List Char) : List Char :=
  l.take 8 ++ '-' :: ((l.drop 8).take 4 ++ '-' :: ((l.drop 12).take 4 ++ '-' ::
    ((l.drop 16).take 4 ++ '-' :: l.drop 20)))

/-- Canonical textual form of a UUID (lowercase hex, dashed). -/
def uuidChars (u : Uuid) : List Char := insertDashes (bytesHexL u.bytes)

/-- Parse a UUID string, accepting the dashed canonical form as well as
plain 32-character hex. -/
def parseUuidChars (l : List Char) : Option Uuid :=
  match parseHexBytes (l.filter (fun c => decide (¬ c = '-'))) with
  | some bs => if bs.length = 16 then some ⟨bs⟩ else none
  | none => none

/-- Parse a fingerprint string: spaces are ignored (the grouped display
form is accepted), and exactly 20 bytes of hex must remain. -/
def parseFingerprintChars (l : List Char) : Option Fingerprint :=
  match parseHexBytes (l.filter (fun c => decide (¬ c = ' '))) with
  | some bs => if bs.length = 20 then some ⟨bs⟩ else none
  | none => none

/-- Human-readable fingerprint: ten groups of four uppercase hex
characters, single spaces between groups and a double space in the
middle, as pinned by TestValidate and TestUpdateRoster. -/
def fingerprintFormat (f : Fingerprint) : List Char :=
  let h := bytesHexU f.bytes
  h.take 4 ++ ' ' :: ((h.drop 4).take 4 ++ ' ' :: ((h.drop 8).take 4 ++ ' ' ::
    ((h.drop 12).take 4 ++ ' ' :: ((h.drop 16).take 4 ++ ' ' :: ' ' ::
    ((h.drop 20).take 4 ++ ' ' :: ((h.drop 24).take 4 ++ ' ' ::
    ((h.drop 28).take 4 ++ ' ' :: ((h.drop 32).take 4 ++ ' ' :: h.drop 36))))))))

/-- A team member: email, key fingerprint, admin flag. -/
structure Person where
  email : List Char
  fingerprint : Fingerprint
  isAdmin : Bool
deriving DecidableEq

/-- A team: public fields plus the private roster/signature pair holding
the exact bytes of the last signed (or loaded) document. -/
structure Team where
  name : List Char
  uuid : Uuid
  version : Nat
  people : List Person
  roster : List Char
  signature : List Char
deriving DecidableEq

/-- Sub-sequence of People with the admin flag set, order preserved. -/
def Team.admins (t : Team) : List Person := t.people.filter (fun p => p.isAdmin)

/-- Whether the fingerprint belongs to a person marked as admin. -/
def Team.isAdmin (t : Team) (f : Fingerprint) : Bool :=
  t.people.any (fun p => p.isAdmin && decide (p.fingerprint = f))

/-- First element of `l` that repeats an earlier one (`seen` accumulates
the elements already passed). -/
def findDup {α : Type} [DecidableEq α] : List α → List α → Option α
  | _, [] => none
  | seen, x :: xs => if x ∈ seen then some x else findDup (x :: seen) xs

def invalidUuidMsg : List Char := ("invalid roster: invalid UUID").data

def noMembersMsg : List Char := ("team has no members").data

def noAdminsMsg : List Char := ("team has no administrators").data

def emailDupMsg (e : List Char) : List Char :=
  ("email listed more than once: ").data ++ e

def fprDupMsg (f : Fingerprint) : List Char :=
  ("fingerprint listed more than once: ").data ++ fingerprintFormat f

/-- Modelled from the spec: `Validate` of the missing team package.  The
check order and the exact error strings are pinned by TestValidate: the
zero-UUID error carries the `invalid roster: ` context, and duplicate
email / fingerprint detection runs before the membership and admin
checks (TestValidate expects the duplicate errors on teams that also
have no administrators). -/
def Team.validate (t : Team) : Option (List Char) :=
  if t.uuid = Uuid.nil then some invalidUuidMsg
  else
    match findDup [] (t.people.map Person.email) with
    | some e => some (emailDupMsg e)
    | none =>
      match findDup [] (t.people.map Person.fingerprint) with
      | some f => some (fprDupMsg f)
      | none =>
        if t.people.isEmpty then some noMembersMsg
        else if t.admins.isEmpty then some noAdminsMsg
        else none

/-- A signing/verification key capability: the external collaborator of
the spec, carrying a fingerprint and able to sign bytes. -/
structure PgpKey where
  fingerprint : Fingerprint
deriving DecidableEq

def sigHeader : List Char := ("-----BEGIN PGP SIGNATURE-----").data

/-- Modelled from the spec: the external signing capability produces a
detached armored signature over the exact byte sequence of the text.
The armored blob is modelled as a tagged pairing of the signing key and
the signed bytes, which is what verification checks against. -/
def PgpKey.makeArmoredDetachedSignature (k : PgpKey) (text : List Char) : List Char :=
  sigHeader ++ '\n' :: (bytesHexU k.fingerprint.bytes ++ '\n' :: text)

def emptySignatureMsg : List Char := ("empty signature").data

def badSignatureMsg : List Char :=
  ("openpgp: invalid signature: hash tag doesn").data ++ aposChar :: ("t match").data

/-- Modelled from the spec: `VerifyRoster` fails eagerly on an empty
signature string, otherwise succeeds exactly when some candidate key
produced the signature over exactly these roster bytes. -/
def verifyRoster (roster signatureText : List Char) (keys : List PgpKey) : Option (List Char) :=
  if signatureText = [] then some emptySignatureMsg
  else if keys.any (fun k => decide (k.makeArmoredDetachedSignature roster = signatureText)) then
    none
  else some badSignatureMsg

/-- Wrap a string value in double quotes for the roster document. -/
def quoteVal (s : List Char) : List Char := quoteChar :: (s ++ [quoteChar])

/-- The five lines a person contributes to the roster document (a blank
separator, the block header, then the three fields), exactly as pinned
by the expected roster of TestUpdateRoster. -/
def personLines (p : Person) : List (List Char) :=
  [ [],
    ("[[person]]").data,
    ("  email = ").data ++ quoteVal p.email,
    ("  fingerprint = ").data ++ quoteVal (bytesHexU p.fingerprint.bytes),
    ("  is_admin = ").data ++ (if p.isAdmin then ("true").data else ("false").data) ]

def peopleLines : List Person → List (List Char)
  | [] => []
  | p :: ps => personLines p ++ peopleLines ps

/-- The document header: four comment lines, then uuid, version, name. -/
def headerLines (t : Team) : List (List Char) :=
  [ ("# ").data ++ t.name ++ (" team roster. Everyone in the team has a copy of this file.").data,
    ("#").data,
    ("# It is used to look up which key to use for an email address and fetch keys").data,
    ("# automatically.").data,
    ("uuid = ").data ++ quoteVal (uuidChars t.uuid),
    ("version = ").data ++ natChars t.version,
    ("name = ").data ++ quoteVal t.name ]

def serializeLines (t : Team) : List (List Char) := headerLines t ++ peopleLines t.people

/-- Join lines, terminating every line (including the last) with a
newline. -/
def joinLines : List (List Char) → List Char
  | [] => []
  | l :: ls => l ++ '\n' :: joinLines ls

/-- Modelled from the spec: the canonical, byte-stable serialization of
a team, matched character for character against the roster expected by
TestUpdateRoster. -/
def serialize (t : Team) : List Char := joinLines (serializeLines t)

/-- Modelled from the spec: `PreviewRoster` performs the serialization
only (no signing). -/
def Team.previewRoster (t : Team) : List Char := serialize t

def cantSignMsg (f : Fingerprint) : List Char :=
  ("can").data ++ aposChar :: ("t sign with key ").data ++ fingerprintFormat f ++
    (" that").data ++ aposChar :: ("s not an admin of the team").data

def invalidTeamMsg (e : List Char) : List Char := ("invalid team: ").data ++ e

/-- Modelled from the spec: `UpdateRoster`.  Validation failure and
authorization failure return an error and leave the team untouched;
success replaces the roster and signature fields together.  The
document records the current `version` field: TestUpdateRoster expects
`version = 0` in the roster produced for a team whose Version is 0.
The mutation of the Go method on `*Team` is modelled by returning the
optional error together with the resulting team value. -/
def Team.updateRoster (t : Team) (key : PgpKey) : Option (List Char) × Team :=
  match t.validate with
  | some e => (some (invalidTeamMsg e), t)
  | none =>
    if t.isAdmin key.fingerprint then
      let rosterText := serialize t
      (none, { t with roster := rosterText,
                      signature := key.makeArmoredDetachedSignature rosterText })
    else (some (cantSignMsg key.fingerprint), t)

/-- The closed enumeration of merge-policy classifications. -/
inductive UpsertWarning where
  | keyWouldBeUpdated
  | emailWouldBeUpdated
  | personWouldNotBeChanged
  | personWouldBeDemotedAsAdmin
  | personWouldBePromotedToAdmin
deriving DecidableEq

/-- Modelled from the spec: the classification loop over the existing
People, returning the classification of the first entry sharing the
email or the fingerprint of the candidate. -/
def upsertWarningsLoop : List Person → Person → Option UpsertWarning
  | [], _ => none
  | p :: ps, cand =>
    if p.email = cand.email ∧ ¬ p.fingerprint = cand.fingerprint then
      some .keyWouldBeUpdated
    else if ¬ p.email = cand.email ∧ p.fingerprint = cand.fingerprint then
      some .emailWouldBeUpdated
    else if p.email = cand.email ∧ p.fingerprint = cand.fingerprint then
      if p.isAdmin = cand.isAdmin then some .personWouldNotBeChanged
      else if p.isAdmin then some .personWouldBeDemotedAsAdmin
      else some .personWouldBePromotedToAdmin
    else upsertWarningsLoop ps cand

/-- Modelled from the spec: `GetUpsertPersonWarnings` classifies the
candidate against the current roster without mutating the team (it is a
pure function of the team value). -/
def Team.getUpsertPersonWarnings (t : Team) (cand : Person) : Option UpsertWarning :=
  upsertWarningsLoop t.people cand

/-- A person matches the candidate identity if either the email or the
fingerprint coincides. -/
def upsertMatches (q cand : Person) : Prop :=
  q.email = cand.email ∨ q.fingerprint = cand.fingerprint

instance (q cand : Person) : Decidable (upsertMatches q cand) := by
  unfold upsertMatches; infer_instance

/-- Specification-side classification table, written from the rows of
section 4.5 of the spec (first matching on the fields, then on the
admin flag transition).  Used to state that the implementation follows
the table. -/
def upsertWarningTable (p cand : Person) : Option UpsertWarning :=
  if p.email = cand.email ∧ ¬ p.fingerprint = cand.fingerprint then
    some .keyWouldBeUpdated
  else if p.fingerprint = cand.fingerprint ∧ ¬ p.email = cand.email then
    some .emailWouldBeUpdated
  else if p.email = cand.email ∧ p.fingerprint = cand.fingerprint ∧ p.isAdmin = cand.isAdmin then
    some .personWouldNotBeChanged
  else if p.email = cand.email ∧ p.fingerprint = cand.fingerprint ∧ p.isAdmin = true ∧ cand.isAdmin = false then
    some .personWouldBeDemotedAsAdmin
  else if p.email = cand.email ∧ p.fingerprint = cand.fingerprint ∧ p.isAdmin = false ∧ cand.isAdmin = true then
    some .personWouldBePromotedToAdmin
  else none

/-- Modelled from the spec: `UpsertPerson` always applies the
replacement, removing every existing entry matched by email or
fingerprint and inserting the candidate. -/
def Team.upsertPerson (t : Team) (cand : Person) : Team :=
  { t with people := t.people.filter (fun q => decide (¬ upsertMatches q cand)) ++ [cand] }

/-- Space test used by line trimming. -/
def isSpaceChar (c : Char) : Bool := decide (c = ' ')

def trimLeft (l : List Char) : List Char := l.dropWhile isSpaceChar

def trimRight : List Char → List Char
  | [] => []
  | c :: cs =>
    match trimRight cs with
    | [] => if isSpaceChar c then [] else [c]
    | r => c :: r

def trim (l : List Char) : List Char := trimRight (trimLeft l)

/-- Split a line at its first equals sign. -/
def splitAtEq : List Char → Option (List Char × List Char)
  | [] => none
  | c :: cs =>
    if c = '=' then some ([], cs)
    else
      match splitAtEq cs with
      | some p => some (c :: p.1, p.2)
      | none => none

/-- Strip one pair of surrounding double quotes, when present. -/
def unquote (l : List Char) : List Char :=
  if 2 ≤ l.length ∧ l.head? = some quoteChar ∧ l.getLast? = some quoteChar then
    (l.drop 1).dropLast
  else l

/-- Parser state: the top-level fields seen so far, the finished person
blocks, and the person block currently open. -/
structure ParseState where
  uuid : Option Uuid
  version : Option Nat
  name : List Char
  donePeople : List Person
  current : Option Person

/-- The zero value a person block starts from: `is_admin` defaults to
false when the document omits it. -/
def defaultPerson : Person := ⟨[], ⟨List.replicate 20 0⟩, false⟩

def peopleOf (st : ParseState) : List Person :=
  st.donePeople ++ (match st.current with | some p => [p] | none => [])

def startPerson (st : ParseState) : ParseState :=
  { st with donePeople := peopleOf st, current := some defaultPerson }

def parseErrMsg : List Char := ("parse error").data

/-- Modelled from the spec: one line of the roster document.  Comments
and blank lines are skipped, `[[person]]` opens a new person block, and
`key = value` assignments apply either to the open person block or to
the top level.  Malformed structure, an invalid UUID string or an
invalid fingerprint string fail with a parse error. -/
def parseLine (st : ParseState) (line : List Char) : Except (List Char) ParseState :=
  let l := trim line
  if l = [] then .ok st
  else if l.head? = some '#' then .ok st
  else if l = ("[[person]]").data then .ok (startPerson st)
  else
    match splitAtEq l with
    | none => .error parseErrMsg
    | some kv =>
      let key := trim kv.1
      let val := trim kv.2
      match st.current with
      | some p =>
        if key = ("email").data then
          .ok { st with current := some { p with email := unquote val } }
        else if key = ("fingerprint").data then
          match parseFingerprintChars (unquote val) with
          | some f => .ok { st with current := some { p with fingerprint := f } }
          | none => .error parseErrMsg
        else if key = ("is_admin").data then
          if val = ("true").data then .ok { st with current := some { p with isAdmin := true } }
          else if val = ("false").data then .ok { st with current := some { p with isAdmin := false } }
          else .error parseErrMsg
        else .ok st
      | none =>
        if key = ("uuid").data then
          match parseUuidChars (unquote val) with
          | some u => .ok { st with uuid := some u }
          | none => .error parseErrMsg
        else if key = ("version").data then
          match parseNatChars val with
          | some n => .ok { st with version := some n }
          | none => .error parseErrMsg
        else if key = ("name").data then .ok { st with name := unquote val }
        else .ok st

def runLines : ParseState → List (List Char) → Except (List Char) ParseState
  | st, [] => .ok st
  | st, l :: ls =>
    match parseLine st l with
    | .ok st2 => runLines st2 ls
    | .error e => .error e

def initParseState : ParseState := ⟨none, none, [], [], none⟩

/-- Split text into lines at newline characters. -/
def splitLines : List Char → List (List Char)
  | [] => [[]]
  | c :: cs =>
    if c = '\n' then [] :: splitLines cs
    else
      match splitLines cs with
      | [] => [[c]]
      | l :: ls => (c :: l) :: ls

/-- Close the final person block and require a uuid; a missing version
field defaults to 0. -/
def finishParse (st : ParseState) : Except (List Char) Team :=
  match st.uuid with
  | some u => .ok ⟨st.name, u, st.version.getD 0, peopleOf st, [], []⟩
  | none => .error parseErrMsg

/-- Modelled from the spec: `Parse` of the roster document.  It neither
verifies the signature nor runs the validator. -/
def parseChars (text : List Char) : Except (List Char) Team :=
  match runLines initParseState (splitLines text) with
  | .ok st => finishParse st
  | .error e => .error e

/-- Modelled from the spec: `Load` parses the roster text and stores the
literal roster and signature bytes on the team, never a
re-serialization. -/
def load (rosterText signatureText : List Char) : Except (List Char) Team :=
  match parseChars rosterText with
  | .ok t => .ok { t with roster := rosterText, signature := signatureText }
  | .error e => .error e

def rosterFilename : List Char := ("roster.toml").data

def signatureFilename : List Char := ("roster.toml.asc").data

/-- Contents of one directory: filename/contents pairs. -/
abbrev DirFiles : Type := List (List Char × List Char)

def readFile (files : DirFiles) (fn : List Char) : Option (List Char) :=
  match List.find? (fun kv => decide (kv.1 = fn)) files with
  | some kv => some kv.2
  | none => none

def writeFile (files : DirFiles) (fn content : List Char) : DirFiles :=
  List.filter (fun kv => decide (¬ kv.1 = fn)) files ++ [(fn, content)]

/-- Modelled from the spec: `RosterSaver.Save` writes the roster text
and signature text as the two files of the team directory, overwriting
previous contents. -/
def rosterSaverSave (files : DirFiles) (rosterText sigText : List Char) : DirFiles :=
  writeFile (writeFile files rosterFilename rosterText) signatureFilename sigText

/-- Modelled from the spec: loading one team directory reads the two
files and hands their literal contents to `load`. -/
def loadTeamFromDirectory (files : DirFiles) : Except (List Char) Team :=
  match readFile files rosterFilename, readFile files signatureFilename with
  | some r, some s => load r s
  | _, _ => .error (("missing roster or signature file").data)

/-- One entry of a root directory listing. -/
structure FsEntry where
  name : List Char
  isDir : Bool
  files : DirFiles

def hasTeamFiles (e : FsEntry) : Bool :=
  (readFile e.files rosterFilename).isSome && (readFile e.files signatureFilename).isSome

def joinPath (root nm : List Char) : List Char := root ++ '/' :: nm

/-- Modelled from the spec: `findTeamSubdirectories` keeps exactly the
immediate subdirectories containing both the roster file and its paired
signature file, silently skipping every other entry. -/
def findTeamSubdirectories (root : List Char) : List FsEntry → List (List Char)
  | [] => []
  | e :: es =>
    if e.isDir && hasTeamFiles e then joinPath root e.name :: findTeamSubdirectories root es
    else findTeamSubdirectories root es

/-- Structural well-formedness of a person that the Go types enforce
([20]byte fingerprints), plus newline-freedom of the email, which the
line-oriented document format requires. -/
def WfPerson (p : Person) : Prop :=
  p.fingerprint.bytes.length = 20 ∧ (∀ b ∈ p.fingerprint.bytes, b < 256) ∧ '\n' ∉ p.email

/-- Structural well-formedness of a team: a 16-byte UUID, newline-free
name, and well-formed people. -/
def WfTeam (t : Team) : Prop :=
  t.uuid.bytes.length = 16 ∧ (∀ b ∈ t.uuid.bytes, b < 256) ∧ '\n' ∉ t.name ∧
    ∀ p ∈ t.people, WfPerson p

instance (p : Person) : Decidable (WfPerson p) := by
  unfold WfPerson; infer_instance

instance (t : Team) : Decidable (WfTeam t) := by
  unfold WfTeam; infer_instance

/-! Round-trip lemmas for the hexadecimal byte codec. -/

theorem hexCharVal_hexDigitCharU : ∀ d, d < 16 → hexCharVal (hexDigitCharU d) = some d := by
  decide

theorem hexCharVal_hexDigitCharL : ∀ d, d < 16 → hexCharVal (hexDigitCharL d) = some d := by
  decide

theorem hexDigitCharU_props : ∀ d, d < 16 →
    hexDigitCharU d ≠ '\n' ∧ hexDigitCharU d ≠ '-' ∧ hexDigitCharU d ≠ ' ' ∧
      isSpaceChar (hexDigitCharU d) = false := by
  decide

theorem hexDigitCharL_props : ∀ d, d < 16 →
    hexDigitCharL d ≠ '\n' ∧ hexDigitCharL d ≠ '-' ∧ hexDigitCharL d ≠ ' ' ∧
      isSpaceChar (hexDigitCharL d) = false := by
  decide

theorem div16_lt (b : Nat) (h : b < 256) : b / 16 < 16 := by omega

theorem mod16_lt (b : Nat) : b % 16 < 16 := Nat.mod_lt _ (by norm_num)

theorem parseHexBytes_bytesHexU (bs : List Nat) (h : ∀ b ∈ bs, b < 256) :
    parseHexBytes (bytesHexU bs) = some bs := by
  induction bs with
  | nil => rfl
  | cons b bs ih =>
    have hb : b < 256 := h b (by simp)
    have hrest : parseHexBytes (bytesHexU bs) = some bs :=
      ih (fun x hx => h x (by simp [hx]))
    show parseHexBytes (hexDigitCharU (b / 16) :: hexDigitCharU (b % 16) :: bytesHexU bs) = _
    rw [parseHexBytes, hexCharVal_hexDigitCharU _ (div16_lt b hb),
      hexCharVal_hexDigitCharU _ (mod16_lt b), hrest]
    show some ((b / 16 * 16 + b % 16) :: bs) = some (b :: bs)
    have : b / 16 * 16 + b % 16 = b := by omega
    rw [this]

theorem parseHexBytes_bytesHexL (bs : List Nat) (h : ∀ b ∈ bs, b < 256) :
    parseHexBytes (bytesHexL bs) = some bs := by
  induction bs with
  | nil => rfl
  | cons b bs ih =>
    have hb : b < 256 := h b (by simp)
    have hrest : parseHexBytes (bytesHexL bs) = some bs :=
      ih (fun x hx => h x (by simp [hx]))
    show parseHexBytes (hexDigitCharL (b / 16) :: hexDigitCharL (b % 16) :: bytesHexL bs) = _
    rw [parseHexBytes, hexCharVal_hexDigitCharL _ (div16_lt b hb),
      hexCharVal_hexDigitCharL _ (mod16_lt b), hrest]
    show some ((b / 16 * 16 + b % 16) :: bs) = some (b :: bs)
    have : b / 16 * 16 + b % 16 = b := by omega
    rw [this]

theorem mem_bytesHexU (bs : List Nat) (h : ∀ b ∈ bs, b < 256) :
    ∀ c ∈ bytesHexU bs, c ≠ '\n' ∧ c ≠ '-' ∧ c ≠ ' ' ∧ isSpaceChar c = false := by
  induction bs with
  | nil => intro c hc; simp [bytesHexU] at hc
  | cons b bs ih =>
    intro c hc
    have hb : b < 256 := h b (by simp)
    have hc2 : c ∈ byteHexU b ∨ c ∈ bytesHexU bs := by
      simpa [bytesHexU, List.mem_append] using hc
    rcases hc2 with hc2 | hc2
    · have : c = hexDigitCharU (b / 16) ∨ c = hexDigitCharU (b % 16) := by
        simpa [byteHexU] using hc2
      rcases this with rfl | rfl
      · exact hexDigitCharU_props _ (div16_lt b hb)
      · exact hexDigitCharU_props _ (mod16_lt b)
    · exact ih (fun x hx => h x (by simp [hx])) c hc2

theorem mem_bytesHexL (bs : List Nat) (h : ∀ b ∈ bs, b < 256) :
    ∀ c ∈ bytesHexL bs, c ≠ '\n' ∧ c ≠ '-' ∧ c ≠ ' ' ∧ isSpaceChar c = false := by
  induction bs with
  | nil => intro c hc; simp [bytesHexL] at hc
  | cons b bs ih =>
    intro c hc
    have hb : b < 256 := h b (by simp)
    have hc2 : c ∈ byteHexL b ∨ c ∈ bytesHexL bs := by
      simpa [bytesHexL, List.mem_append] using hc
    rcases hc2 with hc2 | hc2
    · have : c = hexDigitCharL (b / 16) ∨ c = hexDigitCharL (b % 16) := by
        simpa [byteHexL] using hc2
      rcases this with rfl | rfl
      · exact hexDigitCharL_props _ (div16_lt b hb)
      · exact hexDigitCharL_props _ (mod16_lt b)
    · exact ih (fun x hx => h x (by simp [hx])) c hc2

/-! Round-trip lemmas for the decimal codec used by the version field. -/

/-- Value of a little-endian digit list (proof-side helper). -/
def ofDigitsLE : List Nat → Nat
  | [] => 0
  | d :: ds => d + 10 * ofDigitsLE ds

theorem digitsRev_spec : ∀ fuel n, n < fuel →
    ofDigitsLE (digitsRev fuel n) = n ∧ ∀ d ∈ digitsRev fuel n, d < 10 := by
  intro fuel
  induction fuel with
  | zero => intro n h; omega
  | succ fuel ih =>
    intro n h
    by_cases h0 : n = 0
    · subst h0; simp [digitsRev, ofDigitsLE]
    · have hlt : n / 10 < fuel := by
        have := Nat.div_lt_self (Nat.pos_of_ne_zero h0) (show 1 < 10 by norm_num)
        omega
      obtain ⟨ih1, ih2⟩ := ih (n / 10) hlt
      refine ⟨?_, ?_⟩
      · simp only [digitsRev, h0, if_false, ofDigitsLE, ih1]
        omega
      · intro d hd
        simp only [digitsRev, h0, if_false, List.mem_cons] at hd
        rcases hd with rfl | hd
        · exact Nat.mod_lt _ (by norm_num)
        · exact ih2 d hd

theorem charDigitVal_digitChar : ∀ d, d < 10 →
    charDigitVal (digitChar d) = some d ∧ digitChar d ≠ '\n' ∧
      isSpaceChar (digitChar d) = false := by
  decide

/-- Pure fold giving the numeric value of digit text (proof-side). -/
def valNat : Nat → List Char → Nat
  | acc, [] => acc
  | acc, c :: cs => valNat (acc * 10 + (charDigitVal c).getD 0) cs

theorem parseNatAux_eq_valNat (l : List Char) (h : ∀ c ∈ l, (charDigitVal c).isSome) :
    ∀ acc, parseNatAux acc l = some (valNat acc l) := by
  induction l with
  | nil => intro acc; rfl
  | cons c cs ih =>
    intro acc
    have hc : (charDigitVal c).isSome := h c (by simp)
    obtain ⟨d, hd⟩ := Option.isSome_iff_exists.mp hc
    rw [parseNatAux, hd, valNat, hd]
    exact ih (fun x hx => h x (by simp [hx])) _

theorem valNat_append (xs ys : List Char) :
    ∀ acc, valNat acc (xs ++ ys) = valNat (valNat acc xs) ys := by
  induction xs with
  | nil => intro acc; rfl
  | cons c cs ih => intro acc; simp only [List.cons_append, valNat, List.append_eq, ih]

theorem valNat_digits (ds : List Nat) (h : ∀ d ∈ ds, d < 10) :
    ∀ acc, valNat acc ((ds.reverse).map digitChar) = acc * 10 ^ ds.length + ofDigitsLE ds := by
  induction ds with
  | nil => intro acc; simp [valNat, ofDigitsLE]
  | cons d ds ih =>
    intro acc
    have hd : d < 10 := h d (by simp)
    rw [List.reverse_cons, List.map_append, valNat_append,
      ih (fun x hx => h x (by simp [hx])) acc]
    show valNat _ [digitChar d] = _
    rw [valNat, valNat, (charDigitVal_digitChar d hd).1]
    simp only [Option.getD_some, ofDigitsLE, List.length_cons]
    ring

theorem parseNatChars_natChars (n : Nat) : parseNatChars (natChars n) = some n := by
  by_cases h0 : n = 0
  · subst h0; decide
  · have hn : n < n + 1 := Nat.lt_succ_self n
    obtain ⟨hval, hdigs⟩ := digitsRev_spec (n + 1) n hn
    have hne : digitsRev (n + 1) n ≠ [] := by
      cases n with
      | zero => exact absurd rfl h0
      | succ m => simp [digitsRev]
    have hlistne : natChars n ≠ [] := by
      simp only [natChars, h0, if_false]
      simp [List.map_eq_nil_iff, List.reverse_eq_nil_iff, hne]
    rw [parseNatChars, if_neg hlistne]
    simp only [natChars, h0, if_false]
    rw [parseNatAux_eq_valNat]
    · rw [valNat_digits _ hdigs, hval]; simp
    · intro c hc
      simp only [List.mem_map, List.mem_reverse] at hc
      obtain ⟨d, hd, rfl⟩ := hc
      rw [(charDigitVal_digitChar d (hdigs d hd)).1]
      rfl

theorem mem_natChars (n : Nat) :
    ∀ c ∈ natChars n, c ≠ '\n' ∧ isSpaceChar c = false := by
  intro c hc
  by_cases h0 : n = 0
  · subst h0
    simp [natChars] at hc
    subst hc
    exact ⟨by decide, by decide⟩
  · simp only [natChars, h0, if_false, List.mem_map, List.mem_reverse] at hc
    obtain ⟨d, hd, rfl⟩ := hc
    have := (digitsRev_spec (n + 1) n (Nat.lt_succ_self n)).2 d hd
    exact ⟨(charDigitVal_digitChar d this).2.1, (charDigitVal_digitChar d this).2.2⟩

/-! Round-trip lemmas for the UUID and fingerprint string forms. -/

theorem insertDashes_pieces (l : List Char) :
    l.take 8 ++ ((l.drop 8).take 4 ++ ((l.drop 12).take 4 ++ ((l.drop 16).take 4 ++ l.drop 20))) = l := by
  have h8 := List.take_append_drop 8 l
  have h12 := List.take_append_drop 4 (l.drop 8)
  have h16 := List.take_append_drop 4 (l.drop 12)
  have h20 := List.take_append_drop 4 (l.drop 16)
  rw [List.drop_drop] at h12 h16 h20
  norm_num at h12 h16 h20
  rw [h20, h16, h12, h8]

theorem mem_insertDashes (l : List Char) (c : Char) (hc : c ∈ insertDashes l) :
    c ∈ l ∨ c = '-' := by
  simp only [insertDashes, List.mem_append, List.mem_cons] at hc
  rcases hc with hc | hc
  · exact Or.inl (List.take_subset _ _ hc)
  rcases hc with rfl | hc
  · exact Or.inr rfl
  rcases hc with hc | hc
  · exact Or.inl (List.drop_subset _ _ (List.take_subset _ _ hc))
  rcases hc with rfl | hc
  · exact Or.inr rfl
  rcases hc with hc | hc
  · exact Or.inl (List.drop_subset _ _ (List.take_subset _ _ hc))
  rcases hc with rfl | hc
  · exact Or.inr rfl
  rcases hc with hc | hc
  · exact Or.inl (List.drop_subset _ _ (List.take_subset _ _ hc))
  rcases hc with rfl | hc
  · exact Or.inr rfl
  · exact Or.inl (List.drop_subset _ _ hc)

theorem filter_insertDashes (l : List Char) (h : ∀ c ∈ l, ¬ c = '-') :
    List.filter (fun c => decide (¬ c = '-')) (insertDashes l) = l := by
  have hseg : ∀ (s : List Char), (∀ c ∈ s, c ∈ l) →
      List.filter (fun c => decide (¬ c = '-')) s = s := by
    intro s hs
    apply List.filter_eq_self.mpr
    intro a ha
    exact decide_eq_true (h a (hs a ha))
  have hstep : ∀ (X : List Char),
      List.filter (fun c => decide (¬ c = '-')) ('-' :: X) =
        List.filter (fun c => decide (¬ c = '-')) X := by
    intro X
    simp
  unfold insertDashes
  rw [List.filter_append, hstep, List.filter_append, hstep, List.filter_append, hstep,
    List.filter_append, hstep]
  rw [hseg (l.take 8) (fun c hc => List.take_subset _ _ hc),
    hseg ((l.drop 8).take 4) (fun c hc => List.drop_subset _ _ (List.take_subset _ _ hc)),
    hseg ((l.drop 12).take 4) (fun c hc => List.drop_subset _ _ (List.take_subset _ _ hc)),
    hseg ((l.drop 16).take 4) (fun c hc => List.drop_subset _ _ (List.take_subset _ _ hc)),
    hseg (l.drop 20) (fun c hc => List.drop_subset _ _ hc)]
  exact insertDashes_pieces l

theorem parseUuidChars_uuidChars (u : Uuid) (h16 : u.bytes.length = 16)
    (hb : ∀ b ∈ u.bytes, b < 256) : parseUuidChars (uuidChars u) = some u := by
  unfold parseUuidChars uuidChars
  rw [filter_insertDashes _ (fun c hc => (mem_bytesHexL u.bytes hb c hc).2.1)]
  rw [parseHexBytes_bytesHexL _ hb]
  simp [h16]

theorem parseFingerprintChars_hex (f : Fingerprint) (h20 : f.bytes.length = 20)
    (hb : ∀ b ∈ f.bytes, b < 256) : parseFingerprintChars (bytesHexU f.bytes) = some f := by
  unfold parseFingerprintChars
  have hf : List.filter (fun c => decide (¬ c = ' ')) (bytesHexU f.bytes) = bytesHexU f.bytes :=
    List.filter_eq_self.mpr (fun a ha => decide_eq_true (mem_bytesHexU f.bytes hb a ha).2.2.1)
  rw [hf, parseHexBytes_bytesHexU _ hb]
  simp [h20]

/-! Lemmas about line trimming, key-value splitting and unquoting. -/

theorem trimLeft_cons_space (c : Char) (l : List Char) (h : isSpaceChar c = true) :
    trimLeft (c :: l) = trimLeft l := by
  simp [trimLeft, List.dropWhile_cons, h]

theorem trimLeft_cons_nonspace (c : Char) (l : List Char) (h : isSpaceChar c = false) :
    trimLeft (c :: l) = c :: l := by
  simp [trimLeft, List.dropWhile_cons, h]

theorem trimRight_eq_self (l : List Char) (h : ∀ c ∈ l, isSpaceChar c = false) :
    trimRight l = l := by
  induction l with
  | nil => rfl
  | cons c cs ih =>
    have hc := h c (by simp)
    have hcs := ih (fun x hx => h x (by simp [hx]))
    simp only [trimRight]
    rw [hcs]
    cases cs with
    | nil => simp [hc]
    | cons d ds => rfl

theorem trimRight_append (xs ys : List Char) (hys : ∀ c ∈ ys, isSpaceChar c = false)
    (hne : ys ≠ []) : trimRight (xs ++ ys) = xs ++ ys := by
  induction xs with
  | nil => simpa using trimRight_eq_self ys hys
  | cons x xs ih =>
    simp only [List.cons_append, trimRight, List.append_eq]
    rw [ih]
    have hne2 : xs ++ ys ≠ [] := by
      intro e
      exact hne (List.append_eq_nil.mp e).2
    cases hx : xs ++ ys with
    | nil => exact absurd hx hne2
    | cons a as => rfl

theorem splitAtEq_append (pre post : List Char) (h : '=' ∉ pre) :
    splitAtEq (pre ++ '=' :: post) = some (pre, post) := by
  induction pre with
  | nil => simp [splitAtEq]
  | cons c cs ih =>
    have hc : ¬ c = '=' := by
      intro e
      exact h (by simp [e])
    simp only [List.cons_append, splitAtEq, List.append_eq]
    rw [if_neg hc, ih (fun hm => h (List.mem_cons_of_mem c hm))]

theorem unquote_quoteVal (s : List Char) : unquote (quoteVal s) = s := by
  unfold unquote quoteVal
  rw [if_pos]
  · simp [List.dropLast_concat]
  · refine ⟨?_, rfl, ?_⟩
    · simp
    · show (quoteChar :: (s ++ [quoteChar])).getLast? = some quoteChar
      rw [show quoteChar :: (s ++ [quoteChar]) = (quoteChar :: s) ++ [quoteChar] from rfl]
      exact List.getLast?_concat _

/-! Splitting the joined document recovers the serialized lines. -/

theorem splitLines_append_newline (l rest : List Char) (h : '\n' ∉ l) :
    splitLines (l ++ '\n' :: rest) = l :: splitLines rest := by
  induction l with
  | nil => simp [splitLines]
  | cons c cs ih =>
    have hc : ¬ c = '\n' := fun e => h (by simp [e])
    have hcs := ih (fun hm => h (List.mem_cons_of_mem c hm))
    simp only [List.cons_append, splitLines, List.append_eq]
    rw [if_neg hc, hcs]

theorem splitLines_joinLines (ls : List (List Char)) (h : ∀ l ∈ ls, '\n' ∉ l) :
    splitLines (joinLines ls) = ls ++ [[]] := by
  induction ls with
  | nil => rfl
  | cons l ls ih =>
    have hl : '\n' ∉ l := h l (by simp)
    have hrest := ih (fun x hx => h x (by simp [hx]))
    rw [joinLines, splitLines_append_newline l _ hl, hrest]
    rfl

/-! Evaluation of `parseLine` on each shape of line the serializer
emits. -/

theorem natChars_ne_nil (n : Nat) : natChars n ≠ [] := by
  by_cases h0 : n = 0
  · subst h0; decide
  · have hne : digitsRev (n + 1) n ≠ [] := by
      cases n with
      | zero => exact absurd rfl h0
      | succ m => simp [digitsRev]
    simp only [natChars, h0, if_false]
    simp [List.map_eq_nil_iff, List.reverse_eq_nil_iff, hne]

theorem trimLeft_eq_self (l : List Char) (h : ∀ c ∈ l, isSpaceChar c = false) :
    trimLeft l = l := by
  induction l with
  | nil => rfl
  | cons c cs _ =>
    exact trimLeft_cons_nonspace c cs (h c (by simp))

theorem trimRight_cons_nonspace (c : Char) (cs : List Char) (h : isSpaceChar c = false) :
    ∃ r, trimRight (c :: cs) = c :: r := by
  simp only [trimRight]
  cases trimRight cs with
  | nil => exact ⟨[], by simp [h]⟩
  | cons a as => exact ⟨a :: as, rfl⟩

theorem trimRight_quoteVal_tail (xs v : List Char) :
    trimRight (xs ++ quoteVal v) = xs ++ quoteVal v := by
  have h : xs ++ quoteVal v = (xs ++ quoteChar :: v) ++ [quoteChar] := by
    simp [quoteVal]
  rw [h]
  exact trimRight_append _ _ (by intro c hc; simp at hc; subst hc; decide) (by simp)

theorem trimRight_quoteVal (v : List Char) : trimRight (quoteVal v) = quoteVal v := by
  simpa using trimRight_quoteVal_tail [] v

theorem trim_val_quoted (v : List Char) : trim (' ' :: quoteVal v) = quoteVal v := by
  unfold trim
  rw [show (' ' :: quoteVal v) = ' ' :: quoteChar :: (v ++ [quoteChar]) from rfl]
  rw [trimLeft_cons_space _ _ (by decide), trimLeft_cons_nonspace _ _ (by decide)]
  exact trimRight_quoteVal v

theorem trim_val_nat (n : Nat) : trim (' ' :: natChars n) = natChars n := by
  unfold trim
  have hall : ∀ c ∈ natChars n, isSpaceChar c = false := fun c hc => (mem_natChars n c hc).2
  rw [trimLeft_cons_space _ _ (by decide), trimLeft_eq_self _ hall]
  exact trimRight_eq_self _ hall

theorem parseLine_empty (st : ParseState) : parseLine st [] = .ok st := rfl

theorem parseLine_comment (st : ParseState) (rest : List Char) :
    parseLine st ('#' :: rest) = .ok st := by
  have h1 : trimLeft ('#' :: rest) = '#' :: rest := trimLeft_cons_nonspace _ _ (by decide)
  obtain ⟨r, hr⟩ := trimRight_cons_nonspace '#' (rest) (by decide)
  simp only [parseLine, trim, h1, hr]
  rw [if_neg (by simp)]
  simp [List.head?_cons]

theorem parseLine_personHeader (st : ParseState) :
    parseLine st (("[[person]]").data) = .ok (startPerson st) := rfl

theorem parseLine_uuidLine (u0 : Option Uuid) (ver : Option Nat) (nm : List Char)
    (dp : List Person) (v : List Char) (u : Uuid) (hv : parseUuidChars v = some u) :
    parseLine ⟨u0, ver, nm, dp, none⟩ (("uuid = ").data ++ quoteVal v) =
      .ok ⟨some u, ver, nm, dp, none⟩ := by
  have htrim : trim (("uuid = ").data ++ quoteVal v) = ("uuid = ").data ++ quoteVal v := by
    unfold trim
    rw [show (("uuid = ").data ++ quoteVal v) =
      'u' :: ('u' :: 'i' :: 'd' :: ' ' :: '=' :: ' ' :: quoteVal v) from rfl]
    rw [trimLeft_cons_nonspace _ _ (by decide)]
    exact trimRight_quoteVal_tail (("uuid = ").data) v
  have hsplit : splitAtEq (("uuid = ").data ++ quoteVal v) =
      some ((("uuid ").data, ' ' :: quoteVal v)) := by
    rw [show (("uuid = ").data ++ quoteVal v) =
      ("uuid ").data ++ '=' :: (' ' :: quoteVal v) from rfl]
    exact splitAtEq_append _ _ (by decide)
  simp only [parseLine, htrim, hsplit]
  rw [if_neg (by simp), if_neg (by simp), if_neg (by simp)]
  rw [show trim (("uuid ").data) = ("uuid").data from rfl]
  rw [if_pos rfl, trim_val_quoted, unquote_quoteVal, hv]

theorem parseLine_versionLine (u0 : Option Uuid) (ver : Option Nat) (nm : List Char)
    (dp : List Person) (n : Nat) :
    parseLine ⟨u0, ver, nm, dp, none⟩ (("version = ").data ++ natChars n) =
      .ok ⟨u0, some n, nm, dp, none⟩ := by
  have hall : ∀ c ∈ natChars n, isSpaceChar c = false := fun c hc => (mem_natChars n c hc).2
  have htrim : trim (("version = ").data ++ natChars n) = ("version = ").data ++ natChars n := by
    unfold trim
    rw [show (("version = ").data ++ natChars n) =
      'v' :: ('e' :: 'r' :: 's' :: 'i' :: 'o' :: 'n' :: ' ' :: '=' :: ' ' :: natChars n) from rfl]
    rw [trimLeft_cons_nonspace _ _ (by decide)]
    exact trimRight_append (("version = ").data) (natChars n) hall (natChars_ne_nil n)
  have hsplit : splitAtEq (("version = ").data ++ natChars n) =
      some ((("version ").data, ' ' :: natChars n)) := by
    rw [show (("version = ").data ++ natChars n) =
      ("version ").data ++ '=' :: (' ' :: natChars n) from rfl]
    exact splitAtEq_append _ _ (by decide)
  simp only [parseLine, htrim, hsplit]
  rw [if_neg (by simp), if_neg (by simp), if_neg (by simp)]
  rw [show trim (("version ").data) = ("version").data from rfl]
  rw [if_neg (by decide), if_pos rfl, trim_val_nat, parseNatChars_natChars]

theorem parseLine_nameLine (u0 : Option Uuid) (ver : Option Nat) (nm : List Char)
    (dp : List Person) (v : List Char) :
    parseLine ⟨u0, ver, nm, dp, none⟩ (("name = ").data ++ quoteVal v) =
      .ok ⟨u0, ver, v, dp, none⟩ := by
  have htrim : trim (("name = ").data ++ quoteVal v) = ("name = ").data ++ quoteVal v := by
    unfold trim
    rw [show (("name = ").data ++ quoteVal v) =
      'n' :: ('a' :: 'm' :: 'e' :: ' ' :: '=' :: ' ' :: quoteVal v) from rfl]
    rw [trimLeft_cons_nonspace _ _ (by decide)]
    exact trimRight_quoteVal_tail (("name = ").data) v
  have hsplit : splitAtEq (("name = ").data ++ quoteVal v) =
      some ((("name ").data, ' ' :: quoteVal v)) := by
    rw [show (("name = ").data ++ quoteVal v) =
      ("name ").data ++ '=' :: (' ' :: quoteVal v) from rfl]
    exact splitAtEq_append _ _ (by decide)
  simp only [parseLine, htrim, hsplit]
  rw [if_neg (by simp), if_neg (by simp), if_neg (by simp)]
  rw [show trim (("name ").data) = ("name").data from rfl]
  rw [if_neg (by decide), if_neg (by decide), if_pos rfl, trim_val_quoted, unquote_quoteVal]

theorem parseLine_emailLine (u0 : Option Uuid) (ver : Option Nat) (nm : List Char)
    (dp : List Person) (q : Person) (v : List Char) :
    parseLine ⟨u0, ver, nm, dp, some q⟩ (("  email = ").data ++ quoteVal v) =
      .ok ⟨u0, ver, nm, dp, some ⟨v, q.fingerprint, q.isAdmin⟩⟩ := by
  have htrim : trim (("  email = ").data ++ quoteVal v) = ("email = ").data ++ quoteVal v := by
    unfold trim
    rw [show (("  email = ").data ++ quoteVal v) =
      ' ' :: ' ' :: ('e' :: 'm' :: 'a' :: 'i' :: 'l' :: ' ' :: '=' :: ' ' :: quoteVal v) from rfl]
    rw [trimLeft_cons_space _ _ (by decide), trimLeft_cons_space _ _ (by decide),
      trimLeft_cons_nonspace _ _ (by decide)]
    exact trimRight_quoteVal_tail (("email = ").data) v
  have hsplit : splitAtEq (("email = ").data ++ quoteVal v) =
      some ((("email ").data, ' ' :: quoteVal v)) := by
    rw [show (("email = ").data ++ quoteVal v) =
      ("email ").data ++ '=' :: (' ' :: quoteVal v) from rfl]
    exact splitAtEq_append _ _ (by decide)
  simp only [parseLine, htrim, hsplit]
  rw [if_neg (by simp), if_neg (by simp), if_neg (by simp)]
  rw [show trim (("email ").data) = ("email").data from rfl]
  rw [if_pos rfl, trim_val_quoted, unquote_quoteVal]

theorem parseLine_fingerprintLine (u0 : Option Uuid) (ver : Option Nat) (nm : List Char)
    (dp : List Person) (q : Person) (v : List Char) (f : Fingerprint)
    (hv : parseFingerprintChars v = some f) :
    parseLine ⟨u0, ver, nm, dp, some q⟩ (("  fingerprint = ").data ++ quoteVal v) =
      .ok ⟨u0, ver, nm, dp, some ⟨q.email, f, q.isAdmin⟩⟩ := by
  have htrim : trim (("  fingerprint = ").data ++ quoteVal v) =
      ("fingerprint = ").data ++ quoteVal v := by
    unfold trim
    rw [show (("  fingerprint = ").data ++ quoteVal v) =
      ' ' :: ' ' :: ('f' :: 'i' :: 'n' :: 'g' :: 'e' :: 'r' :: 'p' :: 'r' :: 'i' :: 'n' :: 't' ::
        ' ' :: '=' :: ' ' :: quoteVal v) from rfl]
    rw [trimLeft_cons_space _ _ (by decide), trimLeft_cons_space _ _ (by decide),
      trimLeft_cons_nonspace _ _ (by decide)]
    exact trimRight_quoteVal_tail (("fingerprint = ").data) v
  have hsplit : splitAtEq (("fingerprint = ").data ++ quoteVal v) =
      some ((("fingerprint ").data, ' ' :: quoteVal v)) := by
    rw [show (("fingerprint = ").data ++ quoteVal v) =
      ("fingerprint ").data ++ '=' :: (' ' :: quoteVal v) from rfl]
    exact splitAtEq_append _ _ (by decide)
  simp only [parseLine, htrim, hsplit]
  rw [if_neg (by simp), if_neg (by simp), if_neg (by simp)]
  rw [show trim (("fingerprint ").data) = ("fingerprint").data from rfl]
  rw [if_neg (by decide), if_pos rfl, trim_val_quoted, unquote_quoteVal, hv]

theorem parseLine_isAdminLine (u0 : Option Uuid) (ver : Option Nat) (nm : List Char)
    (dp : List Person) (q : Person) (b : Bool) :
    parseLine ⟨u0, ver, nm, dp, some q⟩
        (("  is_admin = ").data ++ (if b then ("true").data else ("false").data)) =
      .ok ⟨u0, ver, nm, dp, some ⟨q.email, q.fingerprint, b⟩⟩ := by
  cases b
  · show parseLine ⟨u0, ver, nm, dp, some q⟩ (("  is_admin = ").data ++ ("false").data) = _
    rfl
  · show parseLine ⟨u0, ver, nm, dp, some q⟩ (("  is_admin = ").data ++ ("true").data) = _
    rfl

/-! Composition of the line parser over the serialized document. -/

theorem runLines_append (st : ParseState) (xs ys : List (List Char)) :
    runLines st (xs ++ ys) =
      match runLines st xs with
      | .ok st2 => runLines st2 ys
      | .error e => .error e := by
  induction xs generalizing st with
  | nil => rfl
  | cons l ls ih =>
    simp only [List.cons_append, runLines]
    cases parseLine st l with
    | ok st2 => exact ih st2
    | error e => rfl

theorem runLines_cons_ok {st st2 : ParseState} {l : List Char} {ls : List (List Char)}
    (h : parseLine st l = .ok st2) : runLines st (l :: ls) = runLines st2 ls := by
  simp [runLines, h]

theorem runLines_personLines (st : ParseState) (p : Person)
    (h20 : p.fingerprint.bytes.length = 20) (hb : ∀ b ∈ p.fingerprint.bytes, b < 256) :
    runLines st (personLines p) =
      .ok ⟨st.uuid, st.version, st.name, peopleOf st, some p⟩ := by
  obtain ⟨u, ver, nm, dp, cur⟩ := st
  have hfp := parseFingerprintChars_hex p.fingerprint h20 hb
  simp only [personLines]
  rw [runLines_cons_ok (parseLine_empty ⟨u, ver, nm, dp, cur⟩)]
  rw [runLines_cons_ok (parseLine_personHeader ⟨u, ver, nm, dp, cur⟩)]
  rw [show startPerson ⟨u, ver, nm, dp, cur⟩ =
      (⟨u, ver, nm, peopleOf ⟨u, ver, nm, dp, cur⟩, some defaultPerson⟩ : ParseState) from rfl]
  rw [runLines_cons_ok (parseLine_emailLine u ver nm _ defaultPerson p.email)]
  rw [runLines_cons_ok (parseLine_fingerprintLine u ver nm _ _ _ p.fingerprint hfp)]
  rw [runLines_cons_ok (parseLine_isAdminLine u ver nm _ _ p.isAdmin)]
  rfl

theorem runLines_peopleLines (ps : List Person)
    (h : ∀ p ∈ ps, p.fingerprint.bytes.length = 20 ∧ ∀ b ∈ p.fingerprint.bytes, b < 256) :
    ∀ st, ∃ st2, runLines st (peopleLines ps) = .ok st2 ∧ st2.uuid = st.uuid ∧
      st2.version = st.version ∧ st2.name = st.name ∧ peopleOf st2 = peopleOf st ++ ps := by
  induction ps with
  | nil =>
    intro st
    exact ⟨st, rfl, rfl, rfl, rfl, by simp⟩
  | cons p ps ih =>
    intro st
    obtain ⟨hp20, hpb⟩ := h p (by simp)
    have hblock := runLines_personLines st p hp20 hpb
    obtain ⟨st2, hrun, h1, h2, h3, h4⟩ :=
      ih (fun q hq => h q (by simp [hq])) ⟨st.uuid, st.version, st.name, peopleOf st, some p⟩
    refine ⟨st2, ?_, ?_, ?_, ?_, ?_⟩
    · rw [show peopleLines (p :: ps) = personLines p ++ peopleLines ps from rfl,
        runLines_append, hblock]
      exact hrun
    · exact h1
    · exact h2
    · exact h3
    · rw [h4]
      simp [peopleOf, List.append_assoc]

theorem runLines_headerLines (t : Team) (h16 : t.uuid.bytes.length = 16)
    (hub : ∀ b ∈ t.uuid.bytes, b < 256) :
    runLines initParseState (headerLines t) =
      .ok ⟨some t.uuid, some t.version, t.name, [], none⟩ := by
  have hu := parseUuidChars_uuidChars t.uuid h16 hub
  have hc1 : parseLine (⟨none, none, [], [], none⟩ : ParseState)
      (("# ").data ++ t.name ++ (" team roster. Everyone in the team has a copy of this file.").data) =
      .ok ⟨none, none, [], [], none⟩ :=
    parseLine_comment ⟨none, none, [], [], none⟩
      (' ' :: (t.name ++ (" team roster. Everyone in the team has a copy of this file.").data))
  rw [show initParseState = (⟨none, none, [], [], none⟩ : ParseState) from rfl]
  simp only [headerLines]
  rw [runLines_cons_ok hc1]
  rw [runLines_cons_ok (parseLine_comment ⟨none, none, [], [], none⟩ [])]
  rw [runLines_cons_ok (parseLine_comment ⟨none, none, [], [], none⟩
    ((" It is used to look up which key to use for an email address and fetch keys").data))]
  rw [runLines_cons_ok (parseLine_comment ⟨none, none, [], [], none⟩ ((" automatically.").data))]
  rw [runLines_cons_ok (parseLine_uuidLine none none [] [] (uuidChars t.uuid) t.uuid hu)]
  rw [runLines_cons_ok (parseLine_versionLine (some t.uuid) none [] [] t.version)]
  rw [runLines_cons_ok (parseLine_nameLine (some t.uuid) (some t.version) [] [] t.name)]
  rfl

/-! No serialized line contains a newline, so splitting the joined
document recovers exactly the serialized lines. -/

theorem no_newline_quoted (pre s : List Char) (hpre : '\n' ∉ pre) (hs : '\n' ∉ s) :
    '\n' ∉ pre ++ quoteVal s := by
  intro hc
  rcases List.mem_append.mp hc with hc | hc
  · exact hpre hc
  · rcases List.mem_cons.mp hc with hc | hc
    · exact absurd hc (by decide)
    · rcases List.mem_append.mp hc with hc | hc
      · exact hs hc
      · exact absurd (List.mem_singleton.mp hc) (by decide)

theorem no_newline_uuidChars (u : Uuid) (hub : ∀ b ∈ u.bytes, b < 256) :
    '\n' ∉ uuidChars u := by
  intro hc
  rcases mem_insertDashes _ _ hc with hc | hc
  · exact (mem_bytesHexL _ hub _ hc).1 rfl
  · exact absurd hc (by decide)

theorem no_newline_personLines (p : Person) (hp : WfPerson p) :
    ∀ l ∈ personLines p, '\n' ∉ l := by
  obtain ⟨h20, hb, hemail⟩ := hp
  intro l hl
  simp only [personLines, List.mem_cons] at hl
  rcases hl with rfl | rfl | rfl | rfl | rfl | hl
  · simp
  · decide
  · exact no_newline_quoted _ _ (by decide) hemail
  · refine no_newline_quoted _ _ (by decide) ?_
    intro hc
    exact (mem_bytesHexU _ hb _ hc).1 rfl
  · cases hpa : p.isAdmin <;> decide
  · exact absurd hl (List.not_mem_nil _)

theorem no_newline_peopleLines (ps : List Person) (hp : ∀ p ∈ ps, WfPerson p) :
    ∀ l ∈ peopleLines ps, '\n' ∉ l := by
  induction ps with
  | nil => intro l hl; exact absurd hl (List.not_mem_nil _)
  | cons p ps ih =>
    intro l hl
    rcases List.mem_append.mp hl with hl | hl
    · exact no_newline_personLines p (hp p (by simp)) l hl
    · exact ih (fun q hq => hp q (by simp [hq])) l hl

theorem no_newline_serializeLines (t : Team) (hw : WfTeam t) :
    ∀ l ∈ serializeLines t, '\n' ∉ l := by
  obtain ⟨h16, hub, hnl, hp⟩ := hw
  intro l hl
  rcases List.mem_append.mp hl with hl | hl
  · simp only [headerLines, List.mem_cons] at hl
    rcases hl with rfl | rfl | rfl | rfl | rfl | rfl | rfl | hl
    · intro hc
      rcases List.mem_append.mp hc with hc | hc
      · rcases List.mem_append.mp hc with hc | hc
        · exact absurd hc (by decide)
        · exact hnl hc
      · exact absurd hc (by decide)
    · decide
    · decide
    · decide
    · exact no_newline_quoted _ _ (by decide) (no_newline_uuidChars t.uuid hub)
    · intro hc
      rcases List.mem_append.mp hc with hc | hc
      · exact absurd hc (by decide)
      · exact (mem_natChars _ _ hc).1 rfl
    · exact no_newline_quoted _ _ (by decide) hnl
    · exact absurd hl (List.not_mem_nil _)
  · exact no_newline_peopleLines t.people hp l hl

/-- Parsing the canonical serialization of a structurally well-formed
team recovers the team fields exactly (with empty internal roster and
signature fields, which `load` then sets to the literal file bytes). -/
theorem parseChars_serialize (t : Team) (hw : WfTeam t) :
    parseChars (serialize t) = .ok ⟨t.name, t.uuid, t.version, t.people, [], []⟩ := by
  obtain ⟨h16, hub, hnl, hp⟩ := hw
  have hnolines := no_newline_serializeLines t ⟨h16, hub, hnl, hp⟩
  have hsplit := splitLines_joinLines (serializeLines t) hnolines
  obtain ⟨st2, hrun, h1, h2, h3, h4⟩ :=
    runLines_peopleLines t.people (fun q hq => ⟨(hp q hq).1, (hp q hq).2.1⟩)
      ⟨some t.uuid, some t.version, t.name, [], none⟩
  have hu2 : st2.uuid = some t.uuid := h1
  have hv2 : st2.version = some t.version := h2
  have hn2 : st2.name = t.name := h3
  have hp2 : peopleOf st2 = t.people := by
    rw [h4]
    simp [peopleOf]
  have hall : runLines initParseState (headerLines t ++ (peopleLines t.people ++ [[]])) =
      .ok st2 := by
    rw [runLines_append, runLines_headerLines t h16 hub]
    show runLines ⟨some t.uuid, some t.version, t.name, [], none⟩
      (peopleLines t.people ++ [[]]) = _
    rw [runLines_append, hrun]
    show runLines st2 [[]] = _
    rw [runLines_cons_ok (parseLine_empty st2)]
    rfl
  unfold parseChars serialize
  rw [hsplit]
  rw [show serializeLines t = headerLines t ++ peopleLines t.people from rfl, List.append_assoc,
    hall]
  show finishParse st2 = _
  simp only [finishParse]
  rw [hu2]
  show Except.ok (⟨st2.name, t.uuid, st2.version.getD 0, peopleOf st2, [], []⟩ : Team) = _
  rw [hn2, hp2, hv2]
  rfl

/-! Lemmas about the duplicate scan used by the validator. -/

theorem findDup_eq_none_iff {α : Type} [DecidableEq α] (l : List α) :
    ∀ seen, findDup seen l = none ↔ l.Nodup ∧ ∀ x ∈ l, x ∉ seen := by
  induction l with
  | nil => intro seen; simp [findDup]
  | cons x xs ih =>
    intro seen
    by_cases hx : x ∈ seen
    · rw [show findDup seen (x :: xs) = some x from by simp [findDup, hx]]
      constructor
      · intro h; exact absurd h (by simp)
      · rintro ⟨_, h⟩; exact absurd hx (h x (by simp))
    · rw [show findDup seen (x :: xs) = findDup (x :: seen) xs from by simp [findDup, hx]]
      rw [ih (x :: seen)]
      constructor
      · rintro ⟨hnd, hmem⟩
        refine ⟨List.nodup_cons.mpr ⟨?_, hnd⟩, ?_⟩
        · intro hxx
          exact absurd (List.mem_cons_self x seen) (hmem x hxx)
        · intro y hy
          rcases List.mem_cons.mp hy with rfl | hys

          · exact hx
          · intro hyseen
            exact (hmem y hys) (List.mem_cons_of_mem x hyseen)
      · rintro ⟨hnd, hmem⟩
        obtain ⟨hxxs, hnd2⟩ := List.nodup_cons.mp hnd
        refine ⟨hnd2, ?_⟩
        intro y hy hyc
        rcases List.mem_cons.mp hyc with rfl | hyseen
        · exact hxxs hy
        · exact hmem y (List.mem_cons_of_mem x hy) hyseen

theorem findDup_some {α : Type} [DecidableEq α] (l : List α) :
    ∀ seen x, findDup seen l = some x →
      x ∈ l ∧ (x ∈ seen ∨ 2 ≤ l.countP (fun y => decide (y = x))) := by
  induction l with
  | nil => intro seen x h; simp [findDup] at h
  | cons a as ih =>
    intro seen x h
    by_cases ha : a ∈ seen
    · rw [show findDup seen (a :: as) = some a from by simp [findDup, ha]] at h
      obtain rfl : a = x := by simpa using h
      exact ⟨by simp, Or.inl ha⟩
    · rw [show findDup seen (a :: as) = findDup (a :: seen) as from by simp [findDup, ha]] at h
      obtain ⟨hmem, hrest⟩ := ih (a :: seen) x h
      refine ⟨by simp [hmem], ?_⟩
      rcases hrest with hseen | hcount
      · rcases List.mem_cons.mp hseen with rfl | hs
        · right
          have hpos : 0 < as.countP (fun y => decide (y = x)) :=
            List.countP_pos_iff.mpr ⟨x, hmem, by simp⟩
          rw [List.countP_cons, if_pos (show (fun y => decide (y = x)) x = true by simp)]
          omega
        · exact Or.inl hs
      · right
        rw [List.countP_cons]
        split <;> omega

/-! Lemmas about the directory file model. -/

theorem readFile_writeFile_same (files : DirFiles) (fn c : List Char) :
    readFile (writeFile files fn c) fn = some c := by
  induction files with
  | nil =>
    show readFile [(fn, c)] fn = some c
    unfold readFile
    rw [List.find?_cons_of_pos _ (by simp)]
  | cons kv files ih =>
    by_cases h : kv.1 = fn
    · simpa [writeFile, List.filter_cons, h] using ih
    · unfold writeFile at ih ⊢
      rw [List.filter_cons, if_pos (by simpa using h)]
      unfold readFile at ih ⊢
      rw [List.cons_append, List.find?_cons_of_neg _ (by simpa using h)]
      exact ih

theorem readFile_writeFile_other (files : DirFiles) (fn fn2 c : List Char) (h : fn2 ≠ fn) :
    readFile (writeFile files fn c) fn2 = readFile files fn2 := by
  induction files with
  | nil =>
    show readFile [(fn, c)] fn2 = readFile [] fn2
    unfold readFile
    rw [List.find?_cons_of_neg _ (by simpa using fun e => h e.symm)]
  | cons kv files ih =>
    by_cases hk : kv.1 = fn
    · unfold writeFile at ih ⊢
      rw [List.filter_cons, if_neg (by simpa using hk)]
      unfold readFile at ih ⊢
      rw [List.find?_cons_of_neg _ ?_]
      · exact ih
      · subst hk
        simpa using fun e => h e.symm
    · unfold writeFile at ih ⊢
      rw [List.filter_cons, if_pos (by simpa using hk)]
      unfold readFile at ih ⊢
      rw [List.cons_append]
      by_cases h2 : kv.1 = fn2
      · rw [List.find?_cons_of_pos _ (by simpa using h2),
          List.find?_cons_of_pos _ (by simpa using h2)]
      · rw [List.find?_cons_of_neg _ (by simpa using h2),
          List.find?_cons_of_neg _ (by simpa using h2)]
        exact ih

/-! Auxiliary decidability for result values. -/

instance {ε α : Type} [DecidableEq ε] [DecidableEq α] : DecidableEq (Except ε α) := fun x y =>
  match x, y with
  | .ok a, .ok b =>
    if h : a = b then isTrue (by rw [h]) else isFalse (fun e => h (Except.ok.inj e))
  | .error a, .error b =>
    if h : a = b then isTrue (by rw [h]) else isFalse (fun e => h (Except.error.inj e))
  | .ok _, .error _ => isFalse (fun e => Except.noConfusion e)
  | .error _, .ok _ => isFalse (fun e => Except.noConfusion e)

/-! Concrete fixtures taken from the tests of the team package. -/

/-- Fingerprint 5C78E71F6FEFB55829654CC5343CC240D350C30C (example key 2). -/
def fprKey2 : Fingerprint :=
  ⟨[0x5C, 0x78, 0xE7, 0x1F, 0x6F, 0xEF, 0xB5, 0x58, 0x29, 0x65,
    0x4C, 0xC5, 0x34, 0x3C, 0xC2, 0x40, 0xD3, 0x50, 0xC3, 0x0C]⟩

/-- Fingerprint 7C18DE4DE47813568B243AC8719BD63EF03BDC20 (example key 3). -/
def fprKey3 : Fingerprint :=
  ⟨[0x7C, 0x18, 0xDE, 0x4D, 0xE4, 0x78, 0x13, 0x56, 0x8B, 0x24,
    0x3A, 0xC8, 0x71, 0x9B, 0xD6, 0x3E, 0xF0, 0x3B, 0xDC, 0x20]⟩

/-- Fingerprint AAAABBBBAAAABBBBAAAAAAAABBBBAAAABBBBAAAA used across the tests. -/
def fprA : Fingerprint :=
  ⟨[0xAA, 0xAA, 0xBB, 0xBB, 0xAA, 0xAA, 0xBB, 0xBB, 0xAA, 0xAA,
    0xAA, 0xAA, 0xBB, 0xBB, 0xAA, 0xAA, 0xBB, 0xBB, 0xAA, 0xAA]⟩

/-- Fingerprint CCCCDDDDCCCCDDDDCCCCDDDDCCCCDDDDCCCCDDDD used across the tests. -/
def fprC : Fingerprint :=
  ⟨[0xCC, 0xCC, 0xDD, 0xDD, 0xCC, 0xCC, 0xDD, 0xDD, 0xCC, 0xCC,
    0xDD, 0xDD, 0xCC, 0xCC, 0xDD, 0xDD, 0xCC, 0xCC, 0xDD, 0xDD]⟩

/-- UUID 74bb40b4-3510-11e9-968e-53c38df634be of the TestUpdateRoster team. -/
def uuidKiffix : Uuid :=
  ⟨[0x74, 0xbb, 0x40, 0xb4, 0x35, 0x10, 0x11, 0xe9,
    0x96, 0x8e, 0x53, 0xc3, 0x8d, 0xf6, 0x34, 0xbe]⟩

/-- UUID 8e26e4df-0d47-4f7f-9a07-a37b2aa92104 of the upsert tests. -/
def uuidUpsert : Uuid :=
  ⟨[0x8e, 0x26, 0xe4, 0xdf, 0x0d, 0x47, 0x4f, 0x7f,
    0x9a, 0x07, 0xa3, 0x7b, 0x2a, 0xa9, 0x21, 0x04]⟩

/-- The valid single-admin team of TestUpdateRoster. -/
def teamKiffix : Team :=
  ⟨("Kiffix").data, uuidKiffix, 0, [⟨("test@example.com").data, fprKey2, true⟩], [], []⟩

def key2 : PgpKey := ⟨fprKey2⟩

def key3 : PgpKey := ⟨fprKey3⟩

/-- The roster text TestUpdateRoster expects for `teamKiffix`. -/
def expectedKiffixRoster : String :=
  "# Kiffix team roster. Everyone in the team has a copy of this file.\n#\n# It is used to look up which key to use for an email address and fetch keys\n# automatically.\nuuid = \"74bb40b4-3510-11e9-968e-53c38df634be\"\nversion = 0\nname = \"Kiffix\"\n\n[[person]]\n  email = \"test@example.com\"\n  fingerprint = \"5C78E71F6FEFB55829654CC5343CC240D350C30C\"\n  is_admin = true\n"

/-- The zero-UUID team of TestValidate / TestUpdateRoster. -/
def teamNoUuid : Team :=
  ⟨("Missing UUID").data, Uuid.nil, 0, [⟨("test@example.com").data, fprA, false⟩], [], []⟩

/-- A team with a duplicated email and no administrators (TestValidate). -/
def teamDupEmailNoAdmin : Team :=
  ⟨("Kiffix").data, uuidKiffix, 0,
    [⟨("test@example.com").data, fprA, false⟩, ⟨("test@example.com").data, fprC, false⟩],
    [], []⟩

/-! C1.  TestUpdateRoster (src/unnamed/part_000, lines 288-336) expects
the roster produced for a team with Version 0 to read `version = 0`:
the document records the CURRENT version, not an incremented one, so
the claim "increments Version ... recording the incremented Version in
the document" fails on the code. -/

set_option maxRecDepth 40000 in
/-- C1 counterexample: on the valid TestUpdateRoster team (Version 0)
with its admin key, UpdateRoster succeeds, stores exactly the roster
the test expects (which says `version = 0`), and that roster is the
serialization recording the current Version, which differs from the
serialization recording an incremented Version. -/
theorem updateRoster_version_not_incremented_cx :
    (teamKiffix.updateRoster key2).1 = none ∧
    (teamKiffix.updateRoster key2).2.roster = serialize teamKiffix ∧
    (teamKiffix.updateRoster key2).2.roster = (expectedKiffixRoster).data ∧
    teamKiffix.version = 0 ∧
    (teamKiffix.updateRoster key2).2.version = 0 ∧
    serialize teamKiffix ≠ serialize { teamKiffix with version := teamKiffix.version + 1 } := by
  decide

/-- C1 (amended): for every valid team whose signing key fingerprint
matches an admin in People, UpdateRoster leaves Version (and every
other field but the private pair) unchanged, sets roster to the
canonical serialization of the team recording the current Version,
sets signature to a detached signature over exactly those roster
bytes, and replaces both fields together, never one without the
other. -/
theorem updateRoster_success_spec (t : Team) (key : PgpKey)
    (hv : t.validate = none) (ha : t.isAdmin key.fingerprint = true) :
    t.updateRoster key =
      (none, { t with roster := serialize t,
                      signature := key.makeArmoredDetachedSignature (serialize t) }) := by
  unfold Team.updateRoster
  rw [hv, ha]
  rfl

set_option maxRecDepth 40000 in
/-- C1 witness: the amended claim applied to the TestUpdateRoster
fixture. -/
theorem updateRoster_success_spec_witness :
    teamKiffix.validate = none ∧ teamKiffix.isAdmin key2.fingerprint = true ∧
    teamKiffix.updateRoster key2 =
      (none, { teamKiffix with roster := serialize teamKiffix,
                               signature := key2.makeArmoredDetachedSignature
                                 (serialize teamKiffix) }) :=
  ⟨by decide, by decide, updateRoster_success_spec teamKiffix key2 (by decide) (by decide)⟩

/-! C2.  TestValidate (src/unnamed/part_000, lines 368-474) pins both a
different error text for the UUID check (`invalid roster: invalid
UUID`) and a different check order: the duplicate-email and
duplicate-fingerprint errors are reported on teams that also have no
administrators, so the duplicate checks run before the admin check. -/

/-- C2 counterexample: `Validate` on the zero-UUID test team returns
`invalid roster: invalid UUID`, not the claimed `invalid UUID`; and on
a team with a duplicated email, no admins and a valid UUID it returns
the duplicate-email error, not `team has no administrators` as the
claimed fixed order would demand. -/
theorem validate_order_and_message_cx :
    teamNoUuid.validate = some (("invalid roster: invalid UUID").data) ∧
    (("invalid roster: invalid UUID").data) ≠ (("invalid UUID").data) ∧
    teamDupEmailNoAdmin.validate = some (("email listed more than once: test@example.com").data) ∧
    teamDupEmailNoAdmin.people ≠ [] ∧
    (∀ p ∈ teamDupEmailNoAdmin.people, p.isAdmin = false) ∧
    (("email listed more than once: test@example.com").data) ≠
      (("team has no administrators").data) := by
  decide

/-- C2 (amended): `Validate` is a pure function of the team checking
the five invariants in the fixed order non-zero UUID, no duplicate
Email, no duplicate Fingerprint, non-empty People, at least one admin,
returning the first violation as the distinct stable error
`invalid roster: invalid UUID`, `email listed more than once: <email>`,
`fingerprint listed more than once: <formatted fingerprint>`,
`team has no members`, or `team has no administrators`, and nil when
all five hold. -/
theorem validate_spec (t : Team) :
    (t.validate = none ↔ t.uuid ≠ Uuid.nil ∧ t.people ≠ [] ∧
      (∃ p ∈ t.people, p.isAdmin = true) ∧
      (t.people.map Person.email).Nodup ∧ (t.people.map Person.fingerprint).Nodup) ∧
    (t.uuid = Uuid.nil → t.validate = some invalidUuidMsg) ∧
    (t.uuid ≠ Uuid.nil → ¬ (t.people.map Person.email).Nodup →
      ∃ e, 2 ≤ (t.people.map Person.email).countP (fun y => decide (y = e)) ∧
        t.validate = some (emailDupMsg e)) ∧
    (t.uuid ≠ Uuid.nil → (t.people.map Person.email).Nodup →
      ¬ (t.people.map Person.fingerprint).Nodup →
      ∃ f, 2 ≤ (t.people.map Person.fingerprint).countP (fun y => decide (y = f)) ∧
        t.validate = some (fprDupMsg f)) ∧
    (t.uuid ≠ Uuid.nil → (t.people.map Person.email).Nodup →
      (t.people.map Person.fingerprint).Nodup → t.people = [] →
      t.validate = some noMembersMsg) ∧
    (t.uuid ≠ Uuid.nil → (t.people.map Person.email).Nodup →
      (t.people.map Person.fingerprint).Nodup → t.people ≠ [] →
      (∀ p ∈ t.people, p.isAdmin = false) → t.validate = some noAdminsMsg) := by
  have hE : findDup ([] : List (List Char)) (t.people.map Person.email) = none ↔
      (t.people.map Person.email).Nodup := by
    rw [findDup_eq_none_iff]
    simp
  have hF : findDup ([] : List Fingerprint) (t.people.map Person.fingerprint) = none ↔
      (t.people.map Person.fingerprint).Nodup := by
    rw [findDup_eq_none_iff]
    simp
  refine ⟨?_, ?_, ?_, ?_, ?_, ?_⟩
  · constructor
    · intro h
      unfold Team.validate at h
      by_cases hu : t.uuid = Uuid.nil
      · rw [if_pos hu] at h
        simp at h
      rw [if_neg hu] at h
      cases he : findDup [] (t.people.map Person.email) with
      | some e => rw [he] at h; simp at h
      | none =>
      rw [he] at h
      cases hf : findDup [] (t.people.map Person.fingerprint) with
      | some f => rw [hf] at h; simp at h
      | none =>
      rw [hf] at h
      by_cases hm : t.people.isEmpty
      · rw [if_pos hm] at h; simp at h
      rw [if_neg hm] at h
      by_cases hA : t.admins.isEmpty
      · rw [if_pos hA] at h; simp at h
      refine ⟨hu, ?_, ?_, hE.mp he, hF.mp hf⟩
      · simpa [List.isEmpty_iff] using hm
      · have hne : t.admins ≠ [] := by simpa [List.isEmpty_iff] using hA
        obtain ⟨p, hp⟩ := List.exists_mem_of_ne_nil _ hne
        exact ⟨p, (List.mem_filter.mp hp).1, (List.mem_filter.mp hp).2⟩
    · rintro ⟨hu, hm, ⟨p, hp, hpa⟩, hnde, hndf⟩
      unfold Team.validate
      rw [if_neg hu, hE.mpr hnde, hF.mpr hndf,
        if_neg (by simpa [List.isEmpty_iff] using hm), if_neg ?_]
      have hmem : p ∈ t.admins := List.mem_filter.mpr ⟨hp, hpa⟩
      intro hemp
      rw [List.isEmpty_iff] at hemp
      rw [hemp] at hmem
      exact absurd hmem (List.not_mem_nil p)
  · intro hu
    unfold Team.validate
    rw [if_pos hu]
  · intro hu hnd
    cases he : findDup [] (t.people.map Person.email) with
    | none => exact absurd (hE.mp he) hnd
    | some e =>
      have hc := findDup_some _ [] e he
      refine ⟨e, ?_, ?_⟩
      · rcases hc.2 with h0 | h2
        · exact absurd h0 (List.not_mem_nil e)
        · exact h2
      · unfold Team.validate
        rw [if_neg hu, he]
  · intro hu hnde hndf
    cases hf : findDup [] (t.people.map Person.fingerprint) with
    | none => exact absurd (hF.mp hf) hndf
    | some f =>
      have hc := findDup_some _ [] f hf
      refine ⟨f, ?_, ?_⟩
      · rcases hc.2 with h0 | h2
        · exact absurd h0 (List.not_mem_nil f)
        · exact h2
      · unfold Team.validate
        rw [if_neg hu, hE.mpr hnde, hf]
  · intro hu hnde hndf hm
    unfold Team.validate
    rw [if_neg hu, hE.mpr hnde, hF.mpr hndf, if_pos (by simp [hm])]
  · intro hu hnde hndf hm hall
    unfold Team.validate
    rw [if_neg hu, hE.mpr hnde, hF.mpr hndf,
      if_neg (by simpa [List.isEmpty_iff] using hm), if_pos ?_]
    rw [List.isEmpty_iff]
    show t.people.filter (fun p => p.isAdmin) = []
    rw [List.filter_eq_nil_iff]
    intro p hp
    simp [hall p hp]

/-- C2 witness: the amended claim applied to concrete test teams: a
fully valid team validates to nil, and the zero-UUID team yields the
pinned UUID error. -/
theorem validate_spec_witness :
    teamKiffix.validate = none ∧ teamNoUuid.validate = some invalidUuidMsg :=
  ⟨(validate_spec teamKiffix).1.mpr (by decide), (validate_spec teamNoUuid).2.1 (by decide)⟩

/-! C3.  Sign-then-verify round trip over identical bytes. -/

theorem makeArmored_ne_nil (k : PgpKey) (text : List Char) :
    k.makeArmoredDetachedSignature text ≠ [] := by
  unfold PgpKey.makeArmoredDetachedSignature
  rw [show sigHeader = '-' :: ("----BEGIN PGP SIGNATURE-----").data from rfl]
  simp

/-- C3: for every valid team and every key belonging to an admin in its
People, verifying the serialized roster against the detached signature
produced by signing that same text with that key, with that key among
the candidates, succeeds. -/
theorem sign_verify_roundtrip (t : Team) (key : PgpKey)
    (hv : t.validate = none)
    (ha : ∃ p ∈ t.people, p.isAdmin = true ∧ p.fingerprint = key.fingerprint) :
    verifyRoster (serialize t) (key.makeArmoredDetachedSignature (serialize t)) [key] = none := by
  unfold verifyRoster
  rw [if_neg (makeArmored_ne_nil key (serialize t)), if_pos (by simp)]

/-- C3 witness: the round trip on the TestUpdateRoster fixture. -/
theorem sign_verify_roundtrip_witness :
    teamKiffix.validate = none ∧
    (∃ p ∈ teamKiffix.people, p.isAdmin = true ∧ p.fingerprint = key2.fingerprint) ∧
    verifyRoster (serialize teamKiffix)
      (key2.makeArmoredDetachedSignature (serialize teamKiffix)) [key2] = none :=
  ⟨by decide, by decide, sign_verify_roundtrip teamKiffix key2 (by decide) (by decide)⟩

/-! C4.  The merge-policy classification table. -/

theorem upsertLoop_eq_table (cand : Person) : ∀ ps : List Person,
    upsertWarningsLoop ps cand =
      (ps.find? (fun q => decide (q.email = cand.email ∨ q.fingerprint = cand.fingerprint))).bind
        (fun q => upsertWarningTable q cand) := by
  intro ps
  induction ps with
  | nil => rfl
  | cons q ps ih =>
    by_cases he : q.email = cand.email <;> by_cases hf : q.fingerprint = cand.fingerprint
    · rw [List.find?_cons_of_pos _ (by simp [he, hf])]
      show upsertWarningsLoop (q :: ps) cand = upsertWarningTable q cand
      cases hqa : q.isAdmin <;> cases hca : cand.isAdmin <;>
        simp [upsertWarningsLoop, upsertWarningTable, he, hf, hqa, hca]
    · rw [List.find?_cons_of_pos _ (by simp [he])]
      show upsertWarningsLoop (q :: ps) cand = upsertWarningTable q cand
      simp [upsertWarningsLoop, upsertWarningTable, he, hf]
    · rw [List.find?_cons_of_pos _ (by simp [hf])]
      show upsertWarningsLoop (q :: ps) cand = upsertWarningTable q cand
      simp [upsertWarningsLoop, upsertWarningTable, he, hf]
    · rw [List.find?_cons_of_neg _ (by simp [he, hf])]
      rw [show upsertWarningsLoop (q :: ps) cand = upsertWarningsLoop ps cand from by
        simp [upsertWarningsLoop, he, hf]]
      exact ih

/-- C4: `GetUpsertPersonWarnings` returns exactly the classification of
the section 4.5 table applied to the first existing person matching
the candidate by email or fingerprint, and returns nil exactly when
neither the Email nor the Fingerprint of the candidate matches any
existing person.  The operation is a pure function of the team value,
so the People sequence is left unchanged. -/
theorem getUpsertPersonWarnings_table (t : Team) (cand : Person) :
    t.getUpsertPersonWarnings cand =
      (t.people.find? (fun q => decide (q.email = cand.email ∨ q.fingerprint = cand.fingerprint))).bind
        (fun q => upsertWarningTable q cand) ∧
    (t.getUpsertPersonWarnings cand = none ↔
      ∀ q ∈ t.people, q.email ≠ cand.email ∧ q.fingerprint ≠ cand.fingerprint) := by
  have hmain := upsertLoop_eq_table cand t.people
  refine ⟨hmain, ?_⟩
  rw [show t.getUpsertPersonWarnings cand = upsertWarningsLoop t.people cand from rfl, hmain]
  constructor
  · intro h q hq
    cases hfind : t.people.find?
        (fun q => decide (q.email = cand.email ∨ q.fingerprint = cand.fingerprint)) with
    | none =>
      have hnp := List.find?_eq_none.mp hfind q hq
      constructor <;> intro e <;> exact hnp (by simp [e])
    | some q2 =>
      rw [hfind] at h
      have hp2 : q2.email = cand.email ∨ q2.fingerprint = cand.fingerprint := by
        have := List.find?_some hfind
        simpa using this
      exfalso
      have h2 : upsertWarningTable q2 cand = none := by simpa using h
      rcases hp2 with he | hf
      · by_cases hf2 : q2.fingerprint = cand.fingerprint
        · cases hqa : q2.isAdmin <;> cases hca : cand.isAdmin <;>
            simp [upsertWarningTable, he, hf2, hqa, hca] at h2
        · simp [upsertWarningTable, he, hf2] at h2
      · by_cases he2 : q2.email = cand.email
        · cases hqa : q2.isAdmin <;> cases hca : cand.isAdmin <;>
            simp [upsertWarningTable, he2, hf, hqa, hca] at h2
        · simp [upsertWarningTable, he2, hf] at h2
  · intro hall
    rw [List.find?_eq_none.mpr ?_]
    · rfl
    · intro q hq
      have hq2 := hall q hq
      simp only [decide_eq_true_eq]
      rintro (e | e)
      · exact hq2.1 e
      · exact hq2.2 e

/-- The demotion fixture of TestGetUpsertPersonWarnings. -/
def teamUpsertDemote : Team :=
  ⟨("Kiffix").data, uuidUpsert, 0, [⟨("person@example.com").data, fprA, true⟩], [], []⟩

/-- The demoting candidate of TestGetUpsertPersonWarnings. -/
def candDemote : Person := ⟨("person@example.com").data, fprA, false⟩

/-- C4 witness: the table applied to the demotion test case yields the
demotion warning. -/
theorem getUpsertPersonWarnings_table_witness :
    teamUpsertDemote.getUpsertPersonWarnings candDemote =
      some UpsertWarning.personWouldBeDemotedAsAdmin :=
  ((getUpsertPersonWarnings_table teamUpsertDemote candDemote).1).trans (by decide)

/-! C5.  UpsertPerson always applies the replacement. -/

/-- C5: for every team and candidate person, UpsertPerson always
applies the change: the candidate is present afterwards, People
contains exactly one entry matching the candidate identity (by email
or fingerprint), every unmatched existing entry is kept, every matched
existing entry is removed (only the candidate itself can remain for
that identity), and nothing else is introduced. -/
theorem upsertPerson_spec (t : Team) (cand : Person) :
    cand ∈ (t.upsertPerson cand).people ∧
    ((t.upsertPerson cand).people.countP (fun q => decide (upsertMatches q cand))) = 1 ∧
    (∀ q ∈ t.people, ¬ upsertMatches q cand → q ∈ (t.upsertPerson cand).people) ∧
    (∀ q ∈ t.people, upsertMatches q cand → q ∈ (t.upsertPerson cand).people → q = cand) ∧
    (∀ q ∈ (t.upsertPerson cand).people, q ∈ t.people ∨ q = cand) := by
  refine ⟨?_, ?_, ?_, ?_, ?_⟩
  · show cand ∈ t.people.filter (fun q => decide (¬ upsertMatches q cand)) ++ [cand]
    exact List.mem_append_right _ (by simp)
  · show List.countP _ (t.people.filter (fun q => decide (¬ upsertMatches q cand)) ++ [cand]) = 1
    rw [List.countP_append]
    have h0 : List.countP (fun q => decide (upsertMatches q cand))
        (t.people.filter (fun q => decide (¬ upsertMatches q cand))) = 0 := by
      rw [List.countP_eq_zero]
      intro a ha
      have hna := (List.mem_filter.mp ha).2
      simp only [decide_eq_true_eq] at hna ⊢
      exact hna
    rw [h0]
    simp [List.countP_cons, upsertMatches]
  · intro q hq hnm
    refine List.mem_append_left _ ?_
    exact List.mem_filter.mpr ⟨hq, by simpa using hnm⟩
  · intro q _ hm hqin
    rcases List.mem_append.mp hqin with hin | hin
    · have hna := (List.mem_filter.mp hin).2
      simp only [decide_eq_true_eq] at hna
      exact absurd hm hna
    · simpa using hin
  · intro q hq
    rcases List.mem_append.mp hq with hin | hin
    · exact Or.inl (List.mem_filter.mp hin).1
    · exact Or.inr (by simpa using hin)

/-- The key-replacement fixture of TestGetUpsertPersonWarnings. -/
def teamUpsertKey : Team :=
  ⟨("Kiffix").data, uuidUpsert, 0, [⟨("person@example.com").data, fprC, false⟩], [], []⟩

/-- The replacing candidate of TestGetUpsertPersonWarnings. -/
def candA : Person := ⟨("person@example.com").data, fprA, false⟩

/-- C5 witness: upserting over a same-email entry leaves the candidate
as the single entry, as the test expects. -/
theorem upsertPerson_spec_witness :
    candA ∈ (teamUpsertKey.upsertPerson candA).people ∧
    (teamUpsertKey.upsertPerson candA).people = [candA] :=
  ⟨(upsertPerson_spec teamUpsertKey candA).1, by decide⟩

/-! C6.  UpdateRoster rejects non-admin signing keys. -/

/-- C6: for every valid team and every key whose fingerprint matches no
person, or only a person with IsAdmin false, UpdateRoster fails with
the pinned authorization error carrying the formatted fingerprint and
leaves the team (roster and signature included) unchanged. -/
theorem updateRoster_not_admin_spec (t : Team) (key : PgpKey)
    (hv : t.validate = none)
    (hna : ∀ p ∈ t.people, p.fingerprint = key.fingerprint → p.isAdmin = false) :
    t.updateRoster key = (some (cantSignMsg key.fingerprint), t) := by
  have hAdm : t.isAdmin key.fingerprint = false := by
    unfold Team.isAdmin
    rw [List.any_eq_false]
    intro p hp
    by_cases hfp : p.fingerprint = key.fingerprint
    · simp [hna p hp hfp]
    · simp [hfp]
  unfold Team.updateRoster
  rw [hv, hAdm]
  rfl

/-- C6 witness: signing the valid TestUpdateRoster team with the
non-admin example key 3 fails with the exact message pinned by the
test, whose fingerprint part is the grouped display form. -/
theorem updateRoster_not_admin_spec_witness :
    teamKiffix.validate = none ∧
    (∀ p ∈ teamKiffix.people, p.fingerprint = key3.fingerprint → p.isAdmin = false) ∧
    teamKiffix.updateRoster key3 = (some (cantSignMsg key3.fingerprint), teamKiffix) ∧
    fingerprintFormat key3.fingerprint =
      (("7C18 DE4D E478 1356 8B24  3AC8 719B D63E F03B DC20").data) :=
  ⟨by decide, by decide,
    updateRoster_not_admin_spec teamKiffix key3 (by decide) (by decide), by decide⟩

/-! C7.  Empty signatures are rejected eagerly. -/

/-- C7: for every roster text and every candidate key set, VerifyRoster
with the empty string as signature returns the literal
`empty signature` error; the result does not depend on the candidate
keys, so no cryptographic verification against any key is attempted. -/
theorem verifyRoster_empty_rejected (roster : List Char) (keys : List PgpKey) :
    verifyRoster roster [] keys = some (("empty signature").data) := rfl

/-! C8.  Save/Load round trip. -/

/-- C8: for every structurally well-formed team (16-byte UUID, 20-byte
fingerprints, newline-free name and emails) saved to disk as its
previewed roster text plus any signature text, loading the directory
back yields a team whose People, Name, UUID (and Version) equal the
originals and whose private roster and signature fields hold exactly
the bytes written, not a re-serialization. -/
theorem load_save_roundtrip (t : Team) (sig : List Char) (dir : DirFiles) (hw : WfTeam t) :
    loadTeamFromDirectory (rosterSaverSave dir (t.previewRoster) sig) =
      .ok { t with roster := t.previewRoster, signature := sig } := by
  have h1 : readFile (rosterSaverSave dir (t.previewRoster) sig) rosterFilename =
      some (t.previewRoster) := by
    unfold rosterSaverSave
    rw [readFile_writeFile_other _ _ _ _ (by decide), readFile_writeFile_same]
  have h2 : readFile (rosterSaverSave dir (t.previewRoster) sig) signatureFilename =
      some sig := by
    unfold rosterSaverSave
    rw [readFile_writeFile_same]
  unfold loadTeamFromDirectory
  rw [h1, h2]
  show load (t.previewRoster) sig = _
  unfold load
  rw [show t.previewRoster = serialize t from rfl, parseChars_serialize t hw]

set_option maxRecDepth 40000 in
/-- C8 witness: the round trip on the TestUpdateRoster fixture with the
fake signature used by TestLoadTeams. -/
theorem load_save_roundtrip_witness :
    WfTeam teamKiffix ∧
    loadTeamFromDirectory
        (rosterSaverSave [] (teamKiffix.previewRoster) (("fake signature").data)) =
      .ok { teamKiffix with roster := teamKiffix.previewRoster,
                            signature := ("fake signature").data } :=
  ⟨by decide, load_save_roundtrip teamKiffix (("fake signature").data) [] (by decide)⟩

/-! C9.  Discovery of team subdirectories. -/

def goodEntry : FsEntry :=
  ⟨("good").data, true, [(rosterFilename, []), (signatureFilename, [])]⟩

def emptyEntry : FsEntry := ⟨("empty").data, true, []⟩

def missingRosterEntry : FsEntry := ⟨("missing-roster").data, true, [(signatureFilename, [])]⟩

def missingSigEntry : FsEntry := ⟨("missing-signature").data, true, [(rosterFilename, [])]⟩

/-- C9: a path is returned by findTeamSubdirectories exactly when it is
the path of an immediate subdirectory containing both the roster file
and its paired signature file (every other entry is silently skipped,
no error is produced); and on the four-subdirectory fixture of
TestFindTeamSubdirectories — one with both files, one empty, one
missing the roster, one missing the signature — exactly the first is
returned. -/
theorem findTeamSubdirectories_spec :
    (∀ (root : List Char) (entries : List FsEntry) (s : List Char),
      s ∈ findTeamSubdirectories root entries ↔
        ∃ e ∈ entries, e.isDir = true ∧ hasTeamFiles e = true ∧ s = joinPath root e.name) ∧
    findTeamSubdirectories (("/tmp").data)
        [goodEntry, emptyEntry, missingRosterEntry, missingSigEntry] =
      [joinPath (("/tmp").data) (("good").data)] := by
  refine ⟨?_, by decide⟩
  intro root entries s
  induction entries with
  | nil => simp [findTeamSubdirectories]
  | cons e es ih =>
    by_cases h : e.isDir && hasTeamFiles e
    · obtain ⟨hd, ht⟩ : e.isDir = true ∧ hasTeamFiles e = true := by simpa using h
      rw [show findTeamSubdirectories root (e :: es) =
          joinPath root e.name :: findTeamSubdirectories root es from by
        simp [findTeamSubdirectories, h]]
      constructor
      · intro hs
        rcases List.mem_cons.mp hs with rfl | hs
        · exact ⟨e, by simp, hd, ht, rfl⟩
        · obtain ⟨q, hq, h1, h2, h3⟩ := ih.mp hs
          exact ⟨q, by simp [hq], h1, h2, h3⟩
      · rintro ⟨q, hq, h1, h2, h3⟩
        rcases List.mem_cons.mp hq with rfl | hq
        · subst h3
          exact List.mem_cons_self _ _
        · exact List.mem_cons_of_mem _ (ih.mpr ⟨q, hq, h1, h2, h3⟩)
    · rw [show findTeamSubdirectories root (e :: es) = findTeamSubdirectories root es from by
        simp [findTeamSubdirectories, h]]
      rw [ih]
      constructor
      · rintro ⟨q, hq, h1, h2, h3⟩
        exact ⟨q, by simp [hq], h1, h2, h3⟩
      · rintro ⟨q, hq, h1, h2, h3⟩
        rcases List.mem_cons.mp hq with rfl | hq
        · exact absurd (by simp [h1, h2]) h
        · exact ⟨q, hq, h1, h2, h3⟩

/-- C9 witness: membership of the good subdirectory follows from the
characterization applied to the test fixture. -/
theorem findTeamSubdirectories_spec_witness :
    joinPath (("/tmp").data) (("good").data) ∈
      findTeamSubdirectories (("/tmp").data)
        [goodEntry, emptyEntry, missingRosterEntry, missingSigEntry] :=
  (findTeamSubdirectories_spec.1 _ _ _).mpr
    ⟨goodEntry, List.mem_cons_self _ _, rfl, rfl, rfl⟩

/-! C10.  Parsing the TestLoad roster: grouped fingerprints and a
missing version field. -/

/-- The roster document of TestLoad, with fingerprints in the grouped
display form and no version field. -/
def roster10 : String :=
  "# Fluidkeys CIC team roster. Everyone in the team has a copy of this file.\n#\n# It is used to look up which key to use for an email address and fetch keys\n# automatically.\nuuid = \"38be2a70-23d8-11e9-bafd-7f97f2e239a3\"\nname = \"Fluidkeys CIC\"\n\n[[person]]\nemail = \"paul@fluidkeys.com\"\nfingerprint = \"B79F 0840 DEF1 2EBB A72F  F72D 7327 A44C 2157 A758\"\nis_admin = true\n\n[[person]]\nemail = \"ian@fluidkeys.com\"\nfingerprint = \"E63A F0E7 4EB5 DE3F B72D  C981 C991 7093 18EC BDE7\"\nis_admin = false\n\n[[person]]\nemail = \"ray@fluidkeys.com\"\nfingerprint = \"AAAAAAAAAAAAAAAAAAAAAAAAAAAAAAAAAAAAAAAA\"\n# missing is_admin\n"

/-- Fingerprint B79F0840DEF12EBBA72FF72D7327A44C2157A758. -/
def fprPaul : Fingerprint :=
  ⟨[0xB7, 0x9F, 0x08, 0x40, 0xDE, 0xF1, 0x2E, 0xBB, 0xA7, 0x2F,
    0xF7, 0x2D, 0x73, 0x27, 0xA4, 0x4C, 0x21, 0x57, 0xA7, 0x58]⟩

/-- Fingerprint E63AF0E74EB5DE3FB72DC981C991709318ECBDE7. -/
def fprIan : Fingerprint :=
  ⟨[0xE6, 0x3A, 0xF0, 0xE7, 0x4E, 0xB5, 0xDE, 0x3F, 0xB7, 0x2D,
    0xC9, 0x81, 0xC9, 0x91, 0x70, 0x93, 0x18, 0xEC, 0xBD, 0xE7]⟩

/-- Fingerprint AAAAAAAAAAAAAAAAAAAAAAAAAAAAAAAAAAAAAAAA. -/
def fprRay : Fingerprint := ⟨List.replicate 20 0xAA⟩

/-- UUID 38be2a70-23d8-11e9-bafd-7f97f2e239a3 of the TestLoad roster. -/
def uuidFk : Uuid :=
  ⟨[0x38, 0xbe, 0x2a, 0x70, 0x23, 0xd8, 0x11, 0xe9,
    0xba, 0xfd, 0x7f, 0x97, 0xf2, 0xe2, 0x39, 0xa3]⟩

set_option maxRecDepth 40000 in
/-- C10: parsing the TestLoad roster succeeds although the version
field is absent (defaulting Version to 0) and although the person
fingerprints are written in the grouped display form with internal
spaces (a double space in the middle); the resulting 20-byte
Fingerprint values equal the parses of the unspaced 40-hex forms, even
though serialization always emits the unspaced form. -/
theorem parse_grouped_fingerprint_missing_version :
    parseChars ((roster10).data) = .ok ⟨("Fluidkeys CIC").data, uuidFk, 0,
      [⟨("paul@fluidkeys.com").data, fprPaul, true⟩,
       ⟨("ian@fluidkeys.com").data, fprIan, false⟩,
       ⟨("ray@fluidkeys.com").data, fprRay, false⟩], [], []⟩ ∧
    parseFingerprintChars (("B79F 0840 DEF1 2EBB A72F  F72D 7327 A44C 2157 A758").data) =
      some fprPaul ∧
    parseFingerprintChars (("B79F0840DEF12EBBA72FF72D7327A44C2157A758").data) = some fprPaul ∧
    bytesHexU fprPaul.bytes = (("B79F0840DEF12EBBA72FF72D7327A44C2157A758").data) := by
  decide

end team
